import Mathlib

/-!
Verification of the conversational-proxy bot (sergeymorykov/hackaton).

This file is a shallow embedding, over `List Char`, of the pure parts of the
repository that the specification's testable properties talk about:

* `src/formatters.py` — `remove_markdown_stars`, `split_plain_text`,
  `split_formatted_text`, `detect_code_language`;
* `src/state.py` — the bounded per-user dialogue window (`DialogueState`,
  `ContextStore.append`);
* `src/storage.py` — `DialogueStorage` (the sqlite table is modelled as the
  ordered list of its rows, `json.dumps`/`json.loads` are modelled by an
  executable printer/parser pair over a `PyVal` type of Python values);
* `src/ai_client.py` — `_should_rotate_key`, `_rotate_key`,
  `_normalize_messages` and the retry/rotation loop of `generate_reply`
  (the network transport is a parameter: a function from attempt number and
  key index to an outcome);
* `src/bot.py` — the store-relevant event trace of `on_message`.

Python strings are modelled as `List Char` (one element per code point),
Python integers as `Int`/`Nat`.  Regular-expression searches from the source
are hand-compiled to executable scanning functions; each is annotated with
the regex it implements.
-/

/-! ### Basic string helpers (Python semantics over `List Char`) -/

/-- Characters stripped by Python `str.strip()` (whitespace; the common
ASCII set plus NEL, NBSP and the main Unicode space/line separators). -/
def isPyWs (c : Char) : Bool :=
  c = ' ' || c = '\t' || c = '\n' || c = '\r' || c = '\x0b' || c = '\x0c' ||
  c = '\x1c' || c = '\x1d' || c = '\x1e' || c = '\x1f' ||
  c = '\x85' || c = '\xa0' || c = '\u2028' || c = '\u2029' || c = '\u3000'

/-- Python `s.strip(chars)`: remove leading and trailing characters
satisfying `p`. -/
def pyStripBy (p : Char → Bool) (l : List Char) : List Char :=
  ((l.dropWhile p).reverse.dropWhile p).reverse

/-- Python `s.strip()` (default whitespace). -/
def pyStrip (l : List Char) : List Char := pyStripBy isPyWs l

/-- Python `s.strip("\n")`. -/
def stripNL (l : List Char) : List Char := pyStripBy (· = '\n') l

/-- Python `needle in hay` (substring containment). -/
def containsSub (needle hay : List Char) : Bool :=
  match hay with
  | [] => needle.isEmpty
  | _ :: t => needle.isPrefixOf hay || containsSub needle t

/-- Concatenation of a list of strings. -/
def joinL (ls : List (List Char)) : List Char := ls.foldr (· ++ ·) []

/-- The last `n` elements of a list (the "most recent" suffix). -/
def lastN (n : Nat) (l : List α) : List α := (l.reverse.take n).reverse

/-! ### `src/config.py` constants used below -/

/-- `MIN_CODE_CHUNK_SIZE = 500` (src/config.py). -/
def MIN_CODE_CHUNK_SIZE : Nat := 500

/-! ### `src/formatters.py` — `detect_code_language`

Each regular expression of `CODE_LANGUAGE_PATTERNS` is hand-compiled to an
executable at-position matcher over `List Char`; `re.search` is modelled by
trying every position (carrying the previous character for `\b` and
MULTILINE `^`).  Character classes `\w`/`\s` are modelled by their ASCII
semantics (the source patterns are ASCII). -/

/-- `\w` (ASCII). -/
def isWordC (c : Char) : Bool := c.isAlphanum || c = '_'

/-- `\s` in a regex (ASCII: space, tab, newline, carriage return,
form feed, vertical tab). -/
def isReWs (c : Char) : Bool :=
  c = ' ' || c = '\t' || c = '\n' || c = '\r' || c = '\x0c' || c = '\x0b'

/-- Case-insensitive character comparison (`re.IGNORECASE`, ASCII). -/
def lowEq (a b : Char) : Bool := a.toLower = b.toLower

/-- Case-insensitive literal match at the current position. -/
def caselessPre : List Char → List Char → Bool
  | [], _ => true
  | _ :: _, [] => false
  | p :: ps, c :: cs => lowEq p c && caselessPre ps cs

/-- Whether the character starting the remainder is a word character
(`false` at end of input); used for `\b` after a word character. -/
def nextIsWord (rest : List Char) : Bool :=
  match rest.head? with
  | some c => isWordC c
  | none => false

/-- Word-ness of an optional character (`none` = outside the string). -/
def wordO : Option Char → Bool
  | some c => isWordC c
  | none => false

/-- `\b` at a position: the previous character and the current one differ in
word-ness. -/
def boundaryHere (prev : Option Char) (l : List Char) : Bool :=
  wordO prev != wordO l.head?

/-- MULTILINE `^`: start of input or right after a `'\n'`. -/
def atLineStart (prev : Option Char) : Bool :=
  match prev with
  | none => true
  | some c => c = '\n'

/-- At-position match of the `html` signature
`<!DOCTYPE html|<html\b|<body\b|</\w+>` (IGNORECASE). -/
def htmlAt (_prev : Option Char) (l : List Char) : Bool :=
  caselessPre ("<!doctype html".data) l ||
  (caselessPre ("<html".data) l && !nextIsWord (l.drop 5)) ||
  (caselessPre ("<body".data) l && !nextIsWord (l.drop 5)) ||
  (match l with
   | '<' :: '/' :: rest =>
     let run := rest.takeWhile isWordC
     !run.isEmpty && (rest.drop run.length).head? = some '>'
   | _ => false)

/-- At-position match of the `css` signature
`\b[a-zA-Z0-9_\-\.#]+\s*\{[^}]+\}`. -/
def cssAt (prev : Option Char) (l : List Char) : Bool :=
  let cls := fun c => c.isAlphanum || c = '_' || c = '-' || c = '.' || c = '#'
  let run := l.takeWhile cls
  boundaryHere prev l && !run.isEmpty &&
    (match (l.drop run.length).dropWhile isReWs with
     | '{' :: r4 =>
       let inner := r4.takeWhile (· ≠ '}')
       !inner.isEmpty && (r4.drop inner.length).head? = some '}'
     | _ => false)

/-- `(?:kw)\s+\w+\s*` followed by one of `nexts`, caselessly, at the current
position (the common shape of the `javascript` and `python` signatures). -/
def kwDeclAt (kw : List Char) (nexts : List Char) (l : List Char) : Bool :=
  caselessPre kw l &&
    (let r := l.drop kw.length
     let ws := r.takeWhile isReWs
     !ws.isEmpty &&
       (let r2 := r.drop ws.length
        let w := r2.takeWhile isWordC
        !w.isEmpty &&
          (match ((r2.drop w.length).dropWhile isReWs).head? with
           | some c => nexts.contains c
           | none => false)))

/-- At-position match of the `javascript` signature
`\b(function|const|let|var)\s+\w+\s*(?:=|\()|\bconsole\.|document\.|=>`
(IGNORECASE).  Note `document\.` carries no `\b` in the source. -/
def jsAt (prev : Option Char) (l : List Char) : Bool :=
  (boundaryHere prev l &&
    (kwDeclAt ("function".data) ['=', '('] l ||
     kwDeclAt ("const".data) ['=', '('] l ||
     kwDeclAt ("let".data) ['=', '('] l ||
     kwDeclAt ("var".data) ['=', '('] l)) ||
  (boundaryHere prev l && caselessPre ("console.".data) l) ||
  caselessPre ("document.".data) l ||
  ("=>".data).isPrefixOf l

/-- At-position match of the `python` signature
`\b(def|class)\s+\w+\s*\(|\bimport\s+\w+` (IGNORECASE). -/
def pyAt (prev : Option Char) (l : List Char) : Bool :=
  (boundaryHere prev l &&
    (kwDeclAt ("def".data) ['('] l || kwDeclAt ("class".data) ['('] l)) ||
  (boundaryHere prev l && caselessPre ("import".data) l &&
    (let r := l.drop 6
     let ws := r.takeWhile isReWs
     !ws.isEmpty && !((r.drop ws.length).takeWhile isWordC).isEmpty))

/-- `\}\s*$` with backtracking over the non-greedy `[\s\S]*?` before `\}`:
some `'}'` in the input is followed by whitespace running to a `'\n'` or to
the end of the input (MULTILINE `$`). -/
def jsonTail : List Char → Bool
  | [] => false
  | '}' :: r =>
    (let run := r.takeWhile isReWs
     run.length = r.length || run.contains '\n') || jsonTail r
  | _ :: r => jsonTail r

/-- At-position match of the `json` signature
`^\s*\{[\s\S]*?:[\s\S]*?\}\s*$` (MULTILINE). -/
def jsonAt (prev : Option Char) (l : List Char) : Bool :=
  atLineStart prev &&
    (match l.dropWhile isReWs with
     | '{' :: r2 =>
       match r2.findIdx? (· = ':') with
       | some i => jsonTail (r2.drop (i + 1))
       | none => false
     | _ => false)

/-- At-position match of the `bash` signature
`^#!/bin/(?:bash|sh)|^\s*(?:cd|ls|mkdir|rm|echo)\b` (MULTILINE,
case-sensitive). -/
def bashAt (prev : Option Char) (l : List Char) : Bool :=
  atLineStart prev &&
    (("#!/bin/bash".data).isPrefixOf l || ("#!/bin/sh".data).isPrefixOf l ||
      (let r := l.dropWhile isReWs
       (["cd", "ls", "mkdir", "rm", "echo"].map String.data).any fun kw =>
         kw.isPrefixOf r && !nextIsWord (r.drop kw.length)))

/-- `pattern.search(text)`: try the at-position matcher at every position,
carrying the previous character. -/
def searchPrev (f : Option Char → List Char → Bool) (prev : Option Char) :
    List Char → Bool
  | [] => f prev []
  | x :: t => f prev (x :: t) || searchPrev f (some x) t

/-- The ordered `CODE_LANGUAGE_PATTERNS` list (src/formatters.py 15-28). -/
def CODE_LANGUAGE_MATCHERS : List (String × (Option Char → List Char → Bool)) :=
  [("html", htmlAt), ("css", cssAt), ("javascript", jsAt),
   ("python", pyAt), ("json", jsonAt), ("bash", bashAt)]

/-- The `for language, pattern in CODE_LANGUAGE_PATTERNS` loop: first
matching signature wins. -/
def firstSignature (cleaned : List Char) : Option String :=
  (CODE_LANGUAGE_MATCHERS.find? fun p => searchPrev p.2 none cleaned).map (·.1)

/-- Python `str.splitlines()` line-break characters. -/
def isLineBreak (c : Char) : Bool :=
  c = '\n' || c = '\r' || c = '\x0b' || c = '\x0c' ||
  c = '\x1c' || c = '\x1d' || c = '\x1e' || c = '\x85' ||
  c = '\u2028' || c = '\u2029'

/-- Worker for `splitlines` (accumulates the current line reversed;
`\r\n` counts as a single break; no trailing empty line). -/
def splitLinesGo (cur : List Char) : List Char → List (List Char)
  | [] => [cur.reverse]
  | '\r' :: '\n' :: rest2 =>
    cur.reverse :: (if rest2.isEmpty then [] else splitLinesGo [] rest2)
  | c :: rest =>
    if isLineBreak c then
      cur.reverse :: (if rest.isEmpty then [] else splitLinesGo [] rest)
    else splitLinesGo (c :: cur) rest

/-- Python `str.splitlines()`. -/
def splitLines (l : List Char) : List (List Char) :=
  if l.isEmpty then [] else splitLinesGo [] l

/-- The per-line fallback test
`re.search(r"[<>{};=]|^\s*(?:if|for|while|class|def|return)\b", line)`
(src/formatters.py line 47; no flags, so case-sensitive and `^` anchors the
whole line). -/
def lineLooksCode (line : List Char) : Bool :=
  line.any (fun c => c = '<' || c = '>' || c = '{' || c = '}' ||
    c = ';' || c = '=') ||
  (let r := line.dropWhile isReWs
   (["if", "for", "while", "class", "def", "return"].map String.data).any
     fun kw => kw.isPrefixOf r && !nextIsWord (r.drop kw.length))

/-- The non-blank lines of the fallback path
(`[line for line in cleaned.splitlines() if line.strip()]`). -/
def fallbackLines (cleaned : List Char) : List (List Char) :=
  (splitLines cleaned).filter fun ln => !(pyStrip ln).isEmpty

/-- `detect_code_language(text)` (src/formatters.py lines 31-52). -/
def detect_code_language (t : List Char) : Bool × Option String :=
  let cleaned := pyStrip t
  if cleaned.length < 20 then (false, none)
  else
    match firstSignature cleaned with
    | some lang => (true, some lang)
    | none =>
      let lines := fallbackLines cleaned
      if lines.length < 3 then (false, none)
      else
        if max 3 (lines.length / 2) ≤ (lines.filter lineLooksCode).length
        then (true, none) else (false, none)

/-! ### `src/state.py` — bounded dialogue window

`DialogueState.append` pushes one message and then pops from the left while
the deque is longer than `max_messages`; `reset` clears the deque.  The
history is modelled as a `List` (front of the list = oldest message). -/

/-- The `while len(self.history) > self.max_messages: self.history.popleft()`
loop of `DialogueState.append` (src/state.py lines 21-22). -/
def evictWhile (maxM : Nat) : List α → List α
  | [] => []
  | x :: t => if (x :: t).length ≤ maxM then x :: t else evictWhile maxM t

/-- `DialogueState.append` (src/state.py lines 19-22): push right, then evict
from the left down to capacity.  `ContextStore.append` (lines 47-51) applies
exactly this to the per-user state before mirroring it to storage. -/
def dsAppend (maxM : Nat) (hist : List α) (m : α) : List α :=
  evictWhile maxM (hist ++ [m])

/-- A sequence of `append` operations. -/
def dsAppendAll (maxM : Nat) (hist : List α) (ms : List α) : List α :=
  ms.foldl (dsAppend maxM) hist

/-- `DialogueState.reset` (src/state.py lines 24-25): `self.history.clear()`. -/
def dsReset (_hist : List α) : List α := []

/-- Default capacity of `DialogueState` (`max_messages: int = 12`). -/
def DIALOGUE_DEFAULT_CAPACITY : Nat := 12

/-! ### `src/formatters.py` — `split_plain_text` / `split_formatted_text` -/

/-- Index of the last `'\n'` in a string (`text.rfind("\n", ...)` restricted
to the string), `none` when absent. -/
def lastNLIdx (l : List Char) : Option Nat :=
  match l.reverse.findIdx? (· = '\n') with
  | some j => some (l.length - 1 - j)
  | none => none

/-- One iteration of the `while start < len(text)` loop of
`split_plain_text` (src/formatters.py lines 151-158), phrased on the suffix
of the text starting at `start`: computes how many characters the iteration
consumes. -/
def splitCut (limit : Nat) (t : List Char) : Nat :=
  let e0 := min t.length limit
  if e0 < t.length then
    match lastNLIdx (t.take e0) with
    | some p => if 0 < p then p + 1 else e0
    | none => e0
  else e0

/-- The raw parts accumulated by the loop of `split_plain_text`, before the
final strip-and-filter comprehension.  `fuel` bounds the number of
iterations; every call site passes `t.length + 1`, which suffices whenever
`1 ≤ limit` (with `limit = 0` the Python loop would not terminate either). -/
def splitRaw (limit : Nat) : Nat → List Char → List (List Char)
  | 0, _ => []
  | _, [] => []
  | fuel + 1, t =>
    let cut := splitCut limit t
    t.take cut :: splitRaw limit fuel (t.drop cut)

/-- `split_plain_text(text, limit)` (src/formatters.py lines 146-159). -/
def split_plain_text (t : List Char) (limit : Nat) : List (List Char) :=
  if t.length ≤ limit then [t]
  else
    (splitRaw limit (t.length + 1) t).filterMap fun p =>
      let q := stripNL p
      if q.isEmpty then none else some q

/-! ### `src/formatters.py` — `remove_markdown_stars`

The Python function substitutes every fenced code block (regex
`` ```[\s\S]*?``` ``, non-greedy) with `__PLACEHOLDER_CODE_{i}_UNIQUE__`,
strips emphasis markers with four `re.sub` passes
(`\*\*([^*]+)\*\*`, `\*([^*]+)\*`, `__([^_]+)__`, `_([^_]+)_`, each replaced
by the captured group), and finally replaces each placeholder back by its
code block via `str.replace`. -/

/-- First index at which `needle` occurs in `hay` (Python `str.find`),
`none` when absent. -/
def findSub (needle : List Char) : List Char → Option Nat
  | [] => if needle.isEmpty then some 0 else none
  | x :: t =>
    if needle.isPrefixOf (x :: t) then some 0
    else (findSub needle t).map (· + 1)

/-- Python `str.replace(needle, repl)` — replace all non-overlapping
occurrences, scanning left to right (`needle` nonempty in all uses). -/
def replaceAllGo (needle repl : List Char) : Nat → List Char → List Char
  | 0, l => l
  | _, [] => []
  | fuel + 1, x :: t =>
    if needle.isPrefixOf (x :: t) then
      repl ++ replaceAllGo needle repl fuel ((x :: t).drop needle.length)
    else x :: replaceAllGo needle repl fuel t

/-- Python `hay.replace(needle, repl)`. -/
def replaceAll (needle repl hay : List Char) : List Char :=
  replaceAllGo needle repl (hay.length + 1) hay

/-- The placeholder `__PLACEHOLDER_CODE_{n}_UNIQUE__`
(src/formatters.py line 66). -/
def placeholderFor (n : Nat) : List Char :=
  ("__PLACEHOLDER_CODE_".data) ++ (Nat.repr n).data ++ ("_UNIQUE__".data)

/-- `code_block_pattern.sub(replace_code_block, text)` for the non-greedy
regex `` ```[\s\S]*?``` `` (src/formatters.py lines 62-68): returns the text
with each matched block replaced by its placeholder, together with the list
of matched blocks.  A match starts at the leftmost `` ``` `` and ends at the
closest following `` ``` ``; if no closing fence exists the pattern has no
further match and the remainder is left unchanged. -/
def extractBlocks : Nat → Nat → List Char → List Char × List (List Char)
  | 0, _, l => (l, [])
  | fuel + 1, n, l =>
    match findSub ("```".data) l with
    | none => (l, [])
    | some i =>
      let pre := l.take i
      let after := l.drop (i + 3)
      match findSub ("```".data) after with
      | none => (l, [])
      | some j =>
        let block := ("```".data) ++ after.take j ++ ("```".data)
        let rest := after.drop (j + 3)
        let res := extractBlocks fuel (n + 1) rest
        (pre ++ placeholderFor n ++ res.1, block :: res.2)

/-- At-position match of `\*\*([^*]+)\*\*` (for `c = '*'`) or
`__([^_]+)__` (for `c = '_'`): two `c`s, a nonempty run of non-`c`
characters (the greedy `[^c]+` — backtracking cannot help, because
shortening the run only moves a non-`c` character in front of the closing
delimiter), then two `c`s.  Returns the captured run and the rest after the
match. -/
def tryDouble (c : Char) (l : List Char) : Option (List Char × List Char) :=
  match l with
  | a :: b :: rest =>
    if a = c ∧ b = c then
      let run := rest.takeWhile (· ≠ c)
      let tail := rest.drop run.length
      if run.isEmpty then none
      else
        match tail with
        | d :: e :: rest2 => if d = c ∧ e = c then some (run, rest2) else none
        | _ => none
    else none
  | _ => none

/-- At-position match of `\*([^*]+)\*` / `_([^_]+)_`. -/
def trySingle (c : Char) (l : List Char) : Option (List Char × List Char) :=
  match l with
  | a :: rest =>
    if a = c then
      let run := rest.takeWhile (· ≠ c)
      let tail := rest.drop run.length
      if run.isEmpty then none
      else
        match tail with
        | d :: rest2 => if d = c then some (run, rest2) else none
        | _ => none
    else none
  | _ => none

/-- `re.sub(pattern, r"\1", text)` for an at-position matcher `try`:
leftmost-first scanning, each match replaced by its captured group, the scan
resuming after the match. -/
def subScan (tryAt : List Char → Option (List Char × List Char)) :
    Nat → List Char → List Char
  | 0, l => l
  | _, [] => []
  | fuel + 1, x :: xs =>
    match tryAt (x :: xs) with
    | some (run, rest) => run ++ subScan tryAt fuel rest
    | none => x :: subScan tryAt fuel xs

/-- The final restore loop of `remove_markdown_stars`
(src/formatters.py lines 75-76): `text.replace(placeholder(idx), block)` for
each extracted block in order. -/
def restoreBlocks (n : Nat) (blocks : List (List Char)) (t : List Char) :
    List Char :=
  match blocks with
  | [] => t
  | b :: bs => restoreBlocks (n + 1) bs (replaceAll (placeholderFor n) b t)

/-- `remove_markdown_stars(text)` (src/formatters.py lines 60-78). -/
def remove_markdown_stars (l : List Char) : List Char :=
  let ex := extractBlocks (l.length + 1) 0 l
  let t1 := subScan (tryDouble '*') (ex.1.length + 1) ex.1
  let t2 := subScan (trySingle '*') (t1.length + 1) t1
  let t3 := subScan (tryDouble '_') (t2.length + 1) t2
  let t4 := subScan (trySingle '_') (t3.length + 1) t3
  restoreBlocks 0 ex.2 t4

/-- The closing-fence strip of `split_formatted_text`
(src/formatters.py lines 172-175): `body[:-4]` when the body ends with
`"\n```"`, `body[:-3]` when it ends with `"```"`, otherwise unchanged. -/
def stripClosingFence (body : List Char) : List Char :=
  if ("\n```".data).isSuffixOf body then body.take (body.length - 4)
  else if ("```".data).isSuffixOf body then body.take (body.length - 3)
  else body

/-- `split_formatted_text(text, limit)` (src/formatters.py lines 162-181).
Note `max(MIN_CODE_CHUNK_SIZE, limit - len(header) - 4)`: in Python the
subtraction may go negative, but the `max` with `500` then yields `500`,
exactly as truncated `Nat` subtraction does here. -/
def split_formatted_text (t : List Char) (limit : Nat) : List (List Char) :=
  let t0 := stripNL t
  if t0.length ≤ limit then [t0]
  else if ("```".data).isPrefixOf t0 then
    match t0.findIdx? (· = '\n') with
    | some ni =>
      let header := t0.take (ni + 1)
      let body2 := stripClosingFence (t0.drop (ni + 1))
      let cs := max MIN_CODE_CHUNK_SIZE (limit - header.length - 4)
      (split_plain_text body2 cs).map fun p => header ++ pyStrip p ++ ("\n```".data)
    | none => split_plain_text t0 limit
  else split_plain_text t0 limit

/-! ### Python values and the `json` module

`src/storage.py` serializes non-string message content with
`json.dumps(content, ensure_ascii=False)` and deserializes with
`json.loads`.  `PyVal` models the Python values that occur as message
content (strings, integers, booleans, `None`, lists, dicts with string
keys; the repository never produces floats in content).  `dumps`/`loads`
below are executable models of the two library functions: `dumps` uses the
default separators `", "`/`": "` and, with `ensure_ascii=False`, escapes
only `"`,`\` and control characters; `loads` is a recursive-descent parser
accepting JSON whitespace (space, tab, newline, carriage return) between
tokens.  (`loads` rejects number tokens continued by `.`/`e` — floats are
outside the model — and the `NaN`/`Infinity` extensions; no theorem below
depends on inputs of either shape.) -/

inductive PyVal where
  | str (s : List Char)
  | int (n : Int)
  | bool (b : Bool)
  | null
  | list (xs : List PyVal)
  | dict (kvs : List (List Char × PyVal))

/-- Lowercase hexadecimal digit (as produced by `json.dumps` in `\u00xx`
escapes). -/
def hexDig (n : Nat) : Char :=
  if n < 10 then Char.ofNat ('0'.toNat + n) else Char.ofNat ('a'.toNat + n - 10)

/-- `json.dumps` escaping of one string character (with
`ensure_ascii=False`): `"` and `\` are backslash-escaped, the five common
control characters get short escapes, other control characters become
`\u00xx`, everything else is emitted raw. -/
def escChar (c : Char) : List Char :=
  if c = '"' then ['\\', '"']
  else if c = '\\' then ['\\', '\\']
  else if c = '\n' then ['\\', 'n']
  else if c = '\t' then ['\\', 't']
  else if c = '\r' then ['\\', 'r']
  else if c = '\x08' then ['\\', 'b']
  else if c = '\x0c' then ['\\', 'f']
  else if c.toNat < 32 then
    ['\\', 'u', '0', '0', hexDig (c.toNat / 16), hexDig (c.toNat % 16)]
  else [c]

/-- `json.dumps` of a string (without the surrounding context). -/
def dumpsStr (s : List Char) : List Char :=
  '"' :: (s.map escChar).flatten ++ ['"']

/-- Worker for `natRepr` (`fuel > n` at every call site, so the fuel never
runs out on the recursion `n → n / 10`). -/
def natReprGo : Nat → Nat → List Char
  | 0, _ => []
  | fuel + 1, n =>
    if n < 10 then [hexDig n]
    else natReprGo fuel (n / 10) ++ [hexDig (n % 10)]

/-- Decimal digits of a natural number, most significant first (what
Python `str(n)` produces for `n ≥ 0`; `hexDig` prints one digit `< 10`). -/
def natRepr (n : Nat) : List Char := natReprGo (n + 1) n

/-- Python `str(n)` for an integer. -/
def intRepr (n : Int) : List Char :=
  if n < 0 then '-' :: natRepr n.natAbs else natRepr n.toNat

mutual

/-- `json.dumps(v, ensure_ascii=False)` with the default separators. -/
def dumps : PyVal → List Char
  | .str s => dumpsStr s
  | .int n => intRepr n
  | .bool true => "true".data
  | .bool false => "false".data
  | .null => "null".data
  | .list xs => '[' :: dumpsItems xs ++ [']']
  | .dict kvs => '{' :: dumpsMembers kvs ++ ['}']

/-- Comma-space-separated array items. -/
def dumpsItems : List PyVal → List Char
  | [] => []
  | [x] => dumps x
  | x :: y :: t => dumps x ++ ',' :: ' ' :: dumpsItems (y :: t)

/-- Comma-space-separated `"key": value` members. -/
def dumpsMembers : List (List Char × PyVal) → List Char
  | [] => []
  | [(k, v)] => dumpsStr k ++ ':' :: ' ' :: dumps v
  | (k, v) :: m :: t =>
    dumpsStr k ++ ':' :: ' ' :: dumps v ++ ',' :: ' ' :: dumpsMembers (m :: t)

end

/-- JSON inter-token whitespace (what Python `json.loads` skips). -/
def isJWs (c : Char) : Bool := c = ' ' || c = '\t' || c = '\n' || c = '\r'

/-- Skip JSON whitespace. -/
def skipJWs (l : List Char) : List Char := l.dropWhile isJWs

/-- Value of one hexadecimal digit. -/
def hexVal (c : Char) : Option Nat :=
  if '0' ≤ c ∧ c ≤ '9' then some (c.toNat - '0'.toNat)
  else if 'a' ≤ c ∧ c ≤ 'f' then some (c.toNat - 'a'.toNat + 10)
  else if 'A' ≤ c ∧ c ≤ 'F' then some (c.toNat - 'A'.toNat + 10)
  else none

/-- Short escapes accepted after a backslash in a JSON string. -/
def unescC (c : Char) : Option Char :=
  if c = '"' then some '"'
  else if c = '\\' then some '\\'
  else if c = '/' then some '/'
  else if c = 'b' then some '\x08'
  else if c = 'f' then some '\x0c'
  else if c = 'n' then some '\n'
  else if c = 'r' then some '\r'
  else if c = 't' then some '\t'
  else none

/-- Parse the body of a JSON string after the opening quote, up to and
including the closing quote; returns the decoded characters and the rest. -/
def parseStringBody : List Char → Option (List Char × List Char)
  | [] => none
  | c :: rest =>
    if c = '\\' then
      match rest with
      | [] => none
      | e :: rest2 =>
        if e = 'u' then
          match rest2 with
          | a :: b :: c2 :: d :: rest3 =>
            match hexVal a, hexVal b, hexVal c2, hexVal d with
            | some x1, some x2, some x3, some x4 =>
              (parseStringBody rest3).map fun p =>
                (Char.ofNat (4096 * x1 + 256 * x2 + 16 * x3 + x4) :: p.1, p.2)
            | _, _, _, _ => none
          | _ => none
        else
          match unescC e with
          | some u => (parseStringBody rest2).map fun p => (u :: p.1, p.2)
          | none => none
    else if c = '"' then some ([], rest)
    else (parseStringBody rest).map fun p => (c :: p.1, p.2)

/-- Decimal value of a digit string. -/
def digitsVal (ds : List Char) : Nat :=
  ds.foldl (fun a c => 10 * a + (c.toNat - 48)) 0

/-- Parse a JSON integer token (optional minus, digits; number tokens
continued by an exponent or fraction are outside the model and rejected). -/
def parseIntTok (l : List Char) : Option (Int × List Char) :=
  let neg := l.head? = some '-'
  let l2 := if neg then l.tail else l
  let ds := l2.takeWhile Char.isDigit
  if ds.isEmpty then none
  else
    let rest := l2.drop ds.length
    if rest.head? = some '.' ∨ rest.head? = some 'e' ∨ rest.head? = some 'E'
    then none
    else some (if neg then -(digitsVal ds : Int) else (digitsVal ds : Int), rest)

mutual

/-- Recursive-descent parser for one JSON value; `fuel` bounds the total
number of parser calls (call sites pass `2 * length + 2`, sufficient for
every parseable input since each call chain consumes input). -/
def parseVal : Nat → List Char → Option (PyVal × List Char)
  | 0, _ => none
  | fuel + 1, l =>
    match skipJWs l with
    | [] => none
    | c :: r =>
      if c = '{' then
        if (skipJWs r).head? = some '}' then some (.dict [], (skipJWs r).tail)
        else (parseMembers fuel r).map fun p => (.dict p.1, p.2)
      else if c = '[' then
        if (skipJWs r).head? = some ']' then some (.list [], (skipJWs r).tail)
        else (parseItems fuel r).map fun p => (.list p.1, p.2)
      else if c = '"' then (parseStringBody r).map fun p => (.str p.1, p.2)
      else if c = 't' then
        if ("rue".data).isPrefixOf r then some (.bool true, r.drop 3) else none
      else if c = 'f' then
        if ("alse".data).isPrefixOf r then some (.bool false, r.drop 4)
        else none
      else if c = 'n' then
        if ("ull".data).isPrefixOf r then some (.null, r.drop 3) else none
      else (parseIntTok (c :: r)).map fun p => (.int p.1, p.2)

/-- Items of a nonempty JSON array, up to and including the closing `]`. -/
def parseItems : Nat → List Char → Option (List PyVal × List Char)
  | 0, _ => none
  | fuel + 1, l =>
    match parseVal fuel l with
    | none => none
    | some (v, r) =>
      match skipJWs r with
      | ',' :: r2 => (parseItems fuel r2).map fun p => (v :: p.1, p.2)
      | ']' :: r2 => some ([v], r2)
      | _ => none

/-- Members of a nonempty JSON object, up to and including the closing
`}`. -/
def parseMembers : Nat → List Char → Option (List (List Char × PyVal) × List Char)
  | 0, _ => none
  | fuel + 1, l =>
    match skipJWs l with
    | [] => none
    | c :: r =>
      if c = '"' then
        match parseStringBody r with
        | none => none
        | some (k, r2) =>
          match skipJWs r2 with
          | [] => none
          | c3 :: r3 =>
            if c3 = ':' then
              match parseVal fuel r3 with
              | none => none
              | some (v, r4) =>
                match skipJWs r4 with
                | [] => none
                | c5 :: r5 =>
                  if c5 = ',' then
                    (parseMembers fuel r5).map fun p => ((k, v) :: p.1, p.2)
                  else if c5 = '}' then some ([(k, v)], r5)
                  else none
            else none
      else none

end

/-- `json.loads(s)`: parse one value, allow trailing whitespace, reject
trailing garbage. -/
def loads (l : List Char) : Option PyVal :=
  match parseVal (2 * l.length + 2) l with
  | some (v, rest) => if (skipJWs rest).isEmpty then some v else none
  | none => none

/-! ### `src/storage.py` — `DialogueStorage`

The sqlite table `dialogue_messages(id AUTOINCREMENT, user_id, role,
content)` is modelled as the list of its rows in `id` order (new rows are
appended at the end, matching autoincrement ids).  `load_history` selects a
user's rows `ORDER BY id DESC LIMIT ?` and reverses them — i.e. the last
`limit` matching rows in ascending order. -/

structure StoreRow where
  userId : Int
  role : List Char
  content : List Char
  deriving DecidableEq

/-- The stored `content` column: a string is stored as-is,
anything else as `json.dumps(content, ensure_ascii=False)`
(src/storage.py line 57 and lines 68-70). -/
def serializeContent : PyVal → List Char
  | .str s => s
  | v => dumps v

/-- `DialogueStorage.append(user_id, role, content)` (lines 55-61). -/
def storageAppend (db : List StoreRow) (uid : Int) (role : List Char)
    (content : PyVal) : List StoreRow :=
  db ++ [⟨uid, role, serializeContent content⟩]

/-- A sequence of `append` calls for one user. -/
def storageAppendAll (db : List StoreRow) (uid : Int)
    (msgs : List (List Char × PyVal)) : List StoreRow :=
  msgs.foldl (fun d m => storageAppend d uid m.1 m.2) db

/-- The `try: content = json.loads(content) except ...: pass` step of
`load_history` (lines 48-51). -/
def decodeContent (s : List Char) : PyVal :=
  match loads s with
  | some v => v
  | none => .str s

/-- `DialogueStorage.load_history(user_id, limit)` (lines 33-53). -/
def load_history (db : List StoreRow) (uid : Int) (limit : Nat) :
    List (List Char × PyVal) :=
  (lastN limit (db.filter fun r => r.userId = uid)).map
    fun r => (r.role, decodeContent r.content)

/-- `DialogueStorage.replace_history(user_id, messages)` (lines 63-75):
delete the user's rows, then insert the given messages (fresh autoincrement
ids put them after every surviving row). -/
def replace_history (db : List StoreRow) (uid : Int)
    (msgs : List (List Char × PyVal)) : List StoreRow :=
  db.filter (fun r => r.userId ≠ uid) ++
    msgs.map fun m => ⟨uid, m.1, serializeContent m.2⟩

/-- `DialogueStorage.reset_user(user_id)` (lines 77-79). -/
def reset_user (db : List StoreRow) (uid : Int) : List StoreRow :=
  db.filter fun r => r.userId ≠ uid

/-! ### `src/ai_client.py` — `AIClient`

Exceptions are modelled structurally: the two `openai` classes the code
tests with `isinstance` become Boolean fields, `getattr(exc, "status_code",
None)` an optional number, `getattr(exc, "message", "")` and `str(exc)` two
strings.  The transport (`self._client.chat.completions.create`) is a
parameter of the reply model: a function from attempt number and active key
index to an outcome. -/

structure PyExc where
  isRateLimit : Bool
  isBadRequest : Bool
  status : Option Nat
  message : List Char
  text : List Char
  deriving DecidableEq

/-- `str(getattr(exc, "message", "")) or str(exc)` — the empty string is
falsy, so an empty `message` attribute falls back to `str(exc)`. -/
def excText (e : PyExc) : List Char :=
  if e.message.isEmpty then e.text else e.message

/-- `"too many" in message.lower()` (ASCII lowercasing). -/
def hasTooMany (e : PyExc) : Bool :=
  containsSub ("too many".data) ((excText e).map Char.toLower)

/-- `status in (400, 429)`. -/
def statusIn400429 (e : PyExc) : Bool :=
  e.status = some 400 || e.status = some 429

/-- `AIClient._should_rotate_key(exc)` (src/ai_client.py lines 46-56). -/
def _should_rotate_key (e : PyExc) : Bool :=
  if e.isRateLimit then true
  else if e.isBadRequest && statusIn400429 e then hasTooMany e
  else if statusIn400429 e then hasTooMany e || e.status = some 429
  else false

/-- The rotation-worthiness formula exactly as the specification claim
states it: "a rate-limit-class error, OR a BadRequest error with status
400/429 whose message contains the marker, OR any error with status 429,
OR any error with status 400 whose message contains the marker". -/
def rotationWorthySpec (e : PyExc) : Bool :=
  e.isRateLimit || (e.isBadRequest && statusIn400429 e && hasTooMany e) ||
  e.status = some 429 || (e.status = some 400 && hasTooMany e)

/-- The corrected rotation-worthiness formula: for `BadRequest` errors the
status-only clauses do not apply (the code returns from the `BadRequest`
branch without falling through). -/
def rotationWorthyAmended (e : PyExc) : Bool :=
  e.isRateLimit || (e.isBadRequest && statusIn400429 e && hasTooMany e) ||
  (!e.isBadRequest && e.status = some 429) ||
  (!e.isBadRequest && e.status = some 400 && hasTooMany e)

/-- The mutable client state: the ordered key list, the active index, and a
count of `_build_client` calls made after `__init__` (to observe transport
rebuilds). -/
structure ClientState where
  apiKeys : List (List Char)
  currentKeyIdx : Nat
  rebuilds : Nat
  deriving DecidableEq

/-- `AIClient.__init__` (lines 22-27): the `or` fallbacks guarantee a
nonempty key list; the active index starts at 0. -/
def initClient (keys : List (List Char)) : ClientState :=
  { apiKeys := keys, currentKeyIdx := 0, rebuilds := 0 }

/-- `AIClient._rotate_key()` (lines 35-44): no-op returning `False` with a
single key, otherwise advance cyclically and rebuild the transport. -/
def _rotate_key (st : ClientState) : Bool × ClientState :=
  if st.apiKeys.length ≤ 1 then (false, st)
  else
    (true,
      { st with
        currentKeyIdx := (st.currentKeyIdx + 1) % st.apiKeys.length,
        rebuilds := st.rebuilds + 1 })

/-- The `except Exception as exc` handler of `generate_reply` /
`generate_reply_stream` (lines 104-129 / 169-194), acting on the client
state and the local `keys_rotated` counter. -/
def rotateOnError (e : PyExc) (st : ClientState) (initialIdx keysRotated : Nat) :
    ClientState × Nat :=
  if _should_rotate_key e then
    if keysRotated < st.apiKeys.length then
      let r := _rotate_key st
      if r.1 then
        let kr := keysRotated + 1
        if r.2.currentKeyIdx = initialIdx ∧ 0 < kr then (r.2, r.2.apiKeys.length)
        else (r.2, kr)
      else (st, keysRotated)
    else (st, keysRotated)
  else (st, keysRotated)

/-! #### Message normalization -/

/-- `CHAT_ROLES = {"user", "assistant", "system"}` (line 17). -/
def CHAT_ROLES : List (List Char) :=
  ["user".data, "assistant".data, "system".data]

/-- An incoming message dict: `message.get("role")` may be absent,
`message.get("content", "")` defaults to the empty string. -/
structure InMsg where
  role : Option (List Char)
  content : Option PyVal

/-- A normalized message. -/
structure NormMsg where
  role : List Char
  content : PyVal

/-- Python `str(v)` for the values reaching the `str(content)` fallback of
`_normalize_messages` (strings stay themselves, numbers/booleans/`None`
print the Python way; container reprs are modelled structurally — their
exact text is never relied upon, only that the result is a string). -/
def pyStr : PyVal → List Char
  | .str s => s
  | .int n => intRepr n
  | .bool true => "True".data
  | .bool false => "False".data
  | .null => "None".data
  | v => dumps v

/-- `isinstance(content, dict) and "type" in content`. -/
def hasTypeKey (d : List (List Char × PyVal)) : Bool :=
  d.any fun kv => kv.1 = "type".data

/-- `AIClient._normalize_messages` for one message (lines 58-72): reject a
role outside `CHAT_ROLES`; keep list content; wrap a dict carrying a
`"type"` key into a one-element list; stringify everything else. -/
def normalizeMsg (m : InMsg) : Except (List Char) NormMsg :=
  let content := m.content.getD (.str [])
  match m.role with
  | some r =>
    if r ∈ CHAT_ROLES then
      match content with
      | .list xs => .ok ⟨r, .list xs⟩
      | .dict d =>
        if hasTypeKey d then .ok ⟨r, .list [.dict d]⟩
        else .ok ⟨r, .str (pyStr (.dict d))⟩
      | c => .ok ⟨r, .str (pyStr c)⟩
    else .error (("Unsupported role: ".data) ++ r)
  | none => .error (("Unsupported role: None".data))

/-- `AIClient._normalize_messages(messages)` (lines 58-72): the loop
appends one normalized message per input and raises at the first invalid
one. -/
def _normalize_messages : List InMsg → Except (List Char) (List NormMsg)
  | [] => .ok []
  | m :: rest =>
    match normalizeMsg m with
    | .error e => .error e
    | .ok nm =>
      match _normalize_messages rest with
      | .error e => .error e
      | .ok nms => .ok (nm :: nms)

/-- Whether a message would pass the `role not in CHAT_ROLES` check. -/
def validRole (m : InMsg) : Bool :=
  match m.role with
  | some r => decide (r ∈ CHAT_ROLES)
  | none => false

/-- String content recognizer. -/
def isStrB : PyVal → Bool
  | .str _ => true
  | _ => false

/-- List content recognizer. -/
def isListB : PyVal → Bool
  | .list _ => true
  | _ => false

/-! #### The retry/rotation loop of `generate_reply` -/

/-- Errors surfaced by the reply model: a `ValueError` from validation, or
the final transport exception after retries. -/
inductive ReplyErr where
  | validation (msg : List Char)
  | api (e : PyExc)
  deriving DecidableEq

/-- The `AsyncRetrying(stop=stop_after_attempt(3), ...)` loop of
`generate_reply` (lines 88-129): try the transport with the active key; on
success return its text; on an exception run the rotation handler and, with
attempts left, retry, otherwise re-raise the last error.  Returns the
outcome, the final client state and the number of transport calls made. -/
def generateReplyGo (behavior : Nat → Nat → Except PyExc (List Char))
    (initialIdx : Nat) :
    Nat → ClientState → Nat → Nat → Nat →
    Except PyExc (List Char) × ClientState × Nat
  | 0, st, _, _, calls =>
    (.error ⟨false, false, none, [], []⟩, st, calls)
  | attemptsLeft + 1, st, keysRotated, attemptNo, calls =>
    match behavior attemptNo st.currentKeyIdx with
    | .ok s => (.ok s, st, calls + 1)
    | .error e =>
      let p := rotateOnError e st initialIdx keysRotated
      if attemptsLeft = 0 then (.error e, p.1, calls + 1)
      else generateReplyGo behavior initialIdx attemptsLeft p.1 p.2
        (attemptNo + 1) (calls + 1)

/-- `AIClient.generate_reply(messages)` (lines 74-130): normalize first — a
validation error propagates before any transport call — then run the
3-attempt loop.  The transport is the `behavior` parameter. -/
def generate_reply (msgs : List InMsg)
    (behavior : Nat → Nat → Except PyExc (List Char)) (st : ClientState) :
    Except ReplyErr (List Char) × ClientState × Nat :=
  match _normalize_messages msgs with
  | .error m => (.error (.validation m), st, 0)
  | .ok _payload =>
    match generateReplyGo behavior st.currentKeyIdx 3 st 0 0 0 with
    | (.ok s, st2, calls) => (.ok s, st2, calls)
    | (.error e, st2, calls) => (.error (.api e), st2, calls)

/-- `AIClient.generate_reply_stream(messages)` (lines 132-195): identical
normalize-first retry/rotation shape; the transport outcome is the full
sequence of nonempty text deltas. -/
def generateReplyStreamGo (behavior : Nat → Nat → Except PyExc (List (List Char)))
    (initialIdx : Nat) :
    Nat → ClientState → Nat → Nat → Nat →
    Except PyExc (List (List Char)) × ClientState × Nat
  | 0, st, _, _, calls =>
    (.error ⟨false, false, none, [], []⟩, st, calls)
  | attemptsLeft + 1, st, keysRotated, attemptNo, calls =>
    match behavior attemptNo st.currentKeyIdx with
    | .ok s => (.ok s, st, calls + 1)
    | .error e =>
      let p := rotateOnError e st initialIdx keysRotated
      if attemptsLeft = 0 then (.error e, p.1, calls + 1)
      else generateReplyStreamGo behavior initialIdx attemptsLeft p.1 p.2
        (attemptNo + 1) (calls + 1)

/-- `AIClient.generate_reply_stream(messages)` — see
`generateReplyStreamGo`. -/
def generate_reply_stream (msgs : List InMsg)
    (behavior : Nat → Nat → Except PyExc (List (List Char))) (st : ClientState) :
    Except ReplyErr (List (List Char)) × ClientState × Nat :=
  match _normalize_messages msgs with
  | .error m => (.error (.validation m), st, 0)
  | .ok _payload =>
    match generateReplyStreamGo behavior st.currentKeyIdx 3 st 0 0 0 with
    | (.ok s, st2, calls) => (.ok s, st2, calls)
    | (.error e, st2, calls) => (.error (.api e), st2, calls)

/-! ### `src/bot.py` — the store-relevant trace of `on_message`

`on_message` (lines 305-417) interacts with the Dialogue Store exactly
twice: it appends the user turn (line 329) before the stream loop starts
(line 349), and appends the assistant turn (line 387) after the
`async for` completes, with the completed text (substituting `"Готово!"`
when empty, line 383-384) passed through `remove_markdown_stars`
(line 386).  Any exception raised while the stream is being consumed —
whether by the upstream iterator or by the intermediate Telegram
deliveries awaited inside the loop (`_send_code_blocks`,
`_update_status_message`) — is caught by the handlers at lines 406-417,
which only edit the status message and never touch the store; the
assistant append is then skipped.  An exception raised by the *final*
delivery section (lines 392-404) is caught by the same handlers, but only
*after* the assistant turn was already appended at line 387, so it cannot
affect the store either.  The trace below records the store appends and the
stream consumption; `streamOk` states that the `async for` completed
normally, `finalDeliveryFails` that the final delivery section raised. -/

inductive BotEvent where
  | appendUser (content : PyVal)
  | consume (chunk : List Char)
  | appendAssistant (content : List Char)

/-- Lines 383-384: `if not accumulated_text: accumulated_text = "Готово!"`
applied to the concatenation of the stream chunks. -/
def finalAccText (chunks : List (List Char)) : List Char :=
  let acc := joinL chunks
  if acc.isEmpty then ("Готово!".data) else acc

/-- The ordered store/stream events of one `on_message` exchange. -/
def on_message_trace (userContent : PyVal) (chunks : List (List Char))
    (streamOk : Bool) (_finalDeliveryFails : Bool) : List BotEvent :=
  BotEvent.appendUser userContent ::
    (chunks.map BotEvent.consume ++
      (if streamOk then
        [BotEvent.appendAssistant (remove_markdown_stars (finalAccText chunks))]
      else []))

/-- Recognizer for assistant-append events. -/
def isAssistantAppend : BotEvent → Bool
  | .appendAssistant _ => true
  | _ => false

/-- Recognizer for user-append events. -/
def isUserAppend : BotEvent → Bool
  | .appendUser _ => true
  | _ => false

/-- Recognizer for stream-consumption events. -/
def isConsume : BotEvent → Bool
  | .consume _ => true
  | _ => false

/-! ### Concrete fixtures used by counterexamples and witnesses -/

/-- A `BadRequestError` carrying status 429 whose message lacks the
"too many" marker. -/
def excBadRequest429 : PyExc :=
  ⟨false, true, some 429, ("request rejected".data), ("request rejected".data)⟩

/-- A rate-limit-class error (as in the spec's rotation scenario). -/
def rlScenarioExc : PyExc :=
  ⟨true, false, some 429, ("Too Many Requests".data), ("Too Many Requests".data)⟩

/-- Credential set `{A, B}` of the rotation scenario. -/
def rotKeys : List (List Char) := ["sk-a".data, "sk-b".data]

/-- Scenario transport: every call under key 0 (`A`) raises the rate-limit
error, every call under key 1 (`B`) succeeds. -/
def rotBehavior : Nat → Nat → Except PyExc (List Char) :=
  fun _ k => if k = 0 then .error rlScenarioExc else .ok ("rotated".data)

/-- The message list of the rotation scenario. -/
def rotMsgs : List InMsg := [⟨some ("user".data), some (.str ("hi".data))⟩]

/-- Counterexample body for C2: twelve 60-character lines (731 characters,
newline-separated). -/
def c2Body : List Char :=
  joinL (List.replicate 11 (List.replicate 60 'x' ++ ['\n'])) ++
    List.replicate 60 'x'

/-- Counterexample text for C2: a single fenced code block with language
tag `py` around `c2Body`. -/
def c2Text : List Char := ("```py\n".data) ++ c2Body ++ ("\n```".data)

/-! ### Parser-fuel weights and content-safety for the storage theorems -/

mutual

/-- Parser fuel sufficient for `parseVal` on `dumps v`. -/
def W : PyVal → Nat
  | .list [] => 1
  | .list (x :: xs) => listW (x :: xs) + 1
  | .dict [] => 1
  | .dict (kv :: kvs) => dictW (kv :: kvs) + 1
  | _ => 1

/-- Fuel sufficient for `parseItems` on `dumpsItems ys ++ "]" ++ rest`. -/
def listW : List PyVal → Nat
  | [] => 1
  | x :: xs => max (W x) (listW xs) + 1

/-- Fuel sufficient for `parseMembers` on `dumpsMembers m ++ "}" ++ rest`. -/
def dictW : List (List Char × PyVal) → Nat
  | [] => 1
  | kv :: kvs => max (W kv.2) (dictW kvs) + 1

end

/-- Characters that can start a JSON document accepted by Python
`json.loads` (including its `NaN`/`Infinity` extensions). -/
def jsonStartChar (c : Char) : Bool :=
  c = '{' || c = '[' || c = '"' || c = '-' || c.isDigit ||
  c = 't' || c = 'f' || c = 'n' || c = 'N' || c = 'I'

/-- A text that `json.loads` certainly rejects: after optional JSON
whitespace it does not begin with a character that can start a JSON
document (or it is all whitespace). -/
def strNotJson (s : List Char) : Bool :=
  match skipJWs s with
  | [] => true
  | c :: _ => !jsonStartChar c

/-- Content for which the storage round-trip is exact: structured
(non-string) content, or plain text that cannot parse as JSON. -/
def contentSafe : PyVal → Bool
  | .str s => strNotJson s
  | _ => true

/-- Characters that may legitimately follow a complete JSON value inside a
`dumps` output (separator, close bracket/brace) or end the input. -/
def sepStart : List Char → Bool
  | [] => true
  | c :: _ => c = ',' || c = ']' || c = '}'

/-! ## Theorems -/

/-! ### Generic lemmas about `lastN` -/

theorem lastN_of_length_le {l : List α} {n : Nat} (h : l.length ≤ n) :
    lastN n l = l := by
  unfold lastN
  rw [List.take_of_length_le (by simpa using h), List.reverse_reverse]

theorem length_lastN (n : Nat) (l : List α) :
    (lastN n l).length = min n l.length := by
  unfold lastN; simp

theorem lastN_append_left {n : Nat} {b : List α} (a : List α)
    (h : n ≤ b.length) : lastN n (a ++ b) = lastN n b := by
  unfold lastN
  rw [List.reverse_append, List.take_append_eq_append_take,
    Nat.sub_eq_zero_of_le (by simpa using h)]
  simp

theorem lastN_lastN_append (n : Nat) (a b : List α) :
    lastN n (lastN n a ++ b) = lastN n (a ++ b) := by
  rcases le_or_lt n b.length with h | h
  · rw [lastN_append_left _ h, lastN_append_left _ h]
  · unfold lastN
    rw [List.reverse_append, List.reverse_append, List.reverse_reverse,
      List.take_append_eq_append_take, List.take_append_eq_append_take,
      List.take_take]
    have : min (n - b.reverse.length) n = n - b.reverse.length :=
      Nat.min_eq_left (Nat.sub_le _ _)
    rw [this]

/-! ### `state.py` lemmas -/

theorem evictWhile_eq_lastN (maxM : Nat) (l : List α) :
    evictWhile maxM l = lastN maxM l := by
  induction l with
  | nil => simp [evictWhile, lastN]
  | cons x t ih =>
    unfold evictWhile
    by_cases h : (x :: t).length ≤ maxM
    · rw [if_pos h, lastN_of_length_le h]
    · rw [if_neg h, ih]
      have ht : maxM ≤ t.length := by simp at h; omega
      rw [show x :: t = [x] ++ t from rfl, lastN_append_left _ ht]

theorem dsAppend_eq (maxM : Nat) (h : List α) (m : α) :
    dsAppend maxM h m = lastN maxM (h ++ [m]) :=
  evictWhile_eq_lastN maxM (h ++ [m])

theorem dsAppendAll_eq (maxM : Nat) (init : List α) (ms : List α)
    (h : ms ≠ []) : dsAppendAll maxM init ms = lastN maxM (init ++ ms) := by
  induction ms generalizing init with
  | nil => cases h rfl
  | cons m rest ih =>
    unfold dsAppendAll
    rw [List.foldl_cons]
    rcases rest with _ | ⟨r2, rrest⟩
    · simp only [List.foldl_nil]
      rw [dsAppend_eq]
    · have := ih (dsAppend maxM init m) (by simp)
      unfold dsAppendAll at this
      rw [this, dsAppend_eq, lastN_lastN_append]
      congr 1
      simp

/-- C4.  For every `DialogueState` window with capacity `maxM` (default 12)
and any reachable starting history, a sequence of `append` operations never
lets the length exceed `maxM`; when more than `maxM` messages are appended
exactly the most recent `maxM` of them are retained (oldest evicted first);
and `reset` leaves the history empty. -/
theorem c4_bounded_fifo {α : Type} (maxM : Nat) (init ms : List α) :
    (init.length ≤ maxM → (dsAppendAll maxM init ms).length ≤ maxM) ∧
    (maxM < ms.length → dsAppendAll maxM init ms = lastN maxM ms) ∧
    dsReset (dsAppendAll maxM init ms) = [] := by
  refine ⟨?_, ?_, rfl⟩
  · intro h0
    rcases ms with _ | ⟨m, rest⟩
    · simpa [dsAppendAll] using h0
    · rw [dsAppendAll_eq _ _ _ (by simp)]
      rw [length_lastN]
      exact Nat.min_le_left _ _
  · intro h
    have hne : ms ≠ [] := by
      intro e
      subst e
      simp at h
    rw [dsAppendAll_eq _ _ _ hne, lastN_append_left _ (le_of_lt h)]

/-- Witness for C4 at capacity 2 with three appends. -/
theorem c4_witness :
    ([] : List Nat).length ≤ 2 ∧ 2 < ([1, 2, 3] : List Nat).length ∧
    (dsAppendAll 2 ([] : List Nat) [1, 2, 3]).length ≤ 2 ∧
    dsAppendAll 2 ([] : List Nat) [1, 2, 3] = lastN 2 [1, 2, 3] :=
  ⟨by decide, by decide, (c4_bounded_fifo 2 [] [1, 2, 3]).1 (by decide),
    (c4_bounded_fifo 2 [] [1, 2, 3]).2.1 (by decide)⟩

/-- C8.  For every text whose `"\n"`-trimmed form fits within the limit,
`split_formatted_text` returns exactly one chunk equal to that trimmed
input. -/
theorem c8_fits_single_chunk (t : List Char) (limit : Nat)
    (h : (stripNL t).length ≤ limit) :
    split_formatted_text t limit = [stripNL t] := by
  unfold split_formatted_text
  simp [h]

/-- Witness for C8. -/
theorem c8_witness :
    (stripNL ("hi\n".data)).length ≤ 5 ∧
    split_formatted_text ("hi\n".data) 5 = [stripNL ("hi\n".data)] :=
  ⟨by decide, c8_fits_single_chunk ("hi\n".data) 5 (by decide)⟩

/-- C1.  `remove_markdown_stars` does *not* leave fenced code blocks
intact: the `_([^_]+)_` pass mangles the placeholder
`__PLACEHOLDER_CODE_0_UNIQUE__` into `_PLACEHOLDERCODE0UNIQUE__` before the
restore `str.replace` runs, so on the failing input the code block
(including its content `x`) is lost entirely and a second application
changes the text again (idempotence also fails). -/
theorem c1_code_block_destroyed :
    remove_markdown_stars ("```\nx\n```".data) =
      ("_PLACEHOLDERCODE0UNIQUE__".data) ∧
    remove_markdown_stars (remove_markdown_stars ("```\nx\n```".data)) ≠
      remove_markdown_stars ("```\nx\n```".data) := by
  constructor
  · decide
  · decide

/-! ### `ai_client.py` lemmas (single-credential behaviour) -/

theorem rotate_key_single {st : ClientState} (h : st.apiKeys.length ≤ 1) :
    _rotate_key st = (false, st) := by
  unfold _rotate_key
  rw [if_pos h]

theorem rotateOnError_single (e : PyExc) {st : ClientState} (i kr : Nat)
    (h : st.apiKeys.length ≤ 1) : rotateOnError e st i kr = (st, kr) := by
  unfold rotateOnError
  rw [rotate_key_single h]
  split <;> simp

theorem generateReplyGo_single (behavior : Nat → Nat → Except PyExc (List Char))
    (i : Nat) :
    ∀ (n : Nat) (st : ClientState) (kr a c : Nat), st.apiKeys.length ≤ 1 →
      (generateReplyGo behavior i n st kr a c).2.1 = st := by
  intro n
  induction n with
  | zero => intro st kr a c _; rfl
  | succ m ih =>
    intro st kr a c h
    unfold generateReplyGo
    cases hb : behavior a st.currentKeyIdx with
    | ok s => rfl
    | error e =>
      simp only [rotateOnError_single e i kr h]
      by_cases hm : m = 0
      · simp [hm]
      · simp only [hm, if_neg hm]
        exact ih st kr (a + 1) (c + 1) h

/-- C10.  With a single configured credential `_rotate_key` returns `false`
and is a no-op; every run of the `generate_reply` retry loop (any transport
behaviour, hence any sequence of rotation-worthy failures) leaves the
client state — active index 0 and zero transport rebuilds — unchanged; and
a `_rotate_key` call that changes the active index implies at least two
credentials. -/
theorem c10_single_credential :
    (∀ st : ClientState, st.apiKeys.length = 1 → _rotate_key st = (false, st)) ∧
    (∀ (key : List Char) (msgs : List InMsg)
        (behavior : Nat → Nat → Except PyExc (List Char)),
      (generate_reply msgs behavior (initClient [key])).2.1 = initClient [key]) ∧
    (∀ st : ClientState,
      (_rotate_key st).2.currentKeyIdx ≠ st.currentKeyIdx →
        2 ≤ st.apiKeys.length) := by
  refine ⟨?_, ?_, ?_⟩
  · intro st h
    exact rotate_key_single (by omega)
  · intro key msgs behavior
    unfold generate_reply
    cases hn : _normalize_messages msgs with
    | error m => rfl
    | ok pl =>
      have hsingle : (initClient [key]).apiKeys.length ≤ 1 := by
        simp [initClient]
      have hgo := generateReplyGo_single behavior
        (initClient [key]).currentKeyIdx 3 (initClient [key]) 0 0 0 hsingle
      rcases hre : generateReplyGo behavior (initClient [key]).currentKeyIdx 3
          (initClient [key]) 0 0 0 with ⟨res, st2, calls⟩
      rw [hre] at hgo
      cases res <;> simpa using hgo
  · intro st h
    by_cases hl : st.apiKeys.length ≤ 1
    · exact absurd (by rw [rotate_key_single hl]) h
    · omega

/-- Witness for C10: one concrete credential, a transport that always
fails with a rate-limit error, plus a two-credential rotation showing the
contrapositive side. -/
theorem c10_witness :
    _rotate_key (initClient ["k".data]) = (false, initClient ["k".data]) ∧
    (generate_reply [] (fun _ _ => .error ⟨true, false, some 429, [], []⟩)
        (initClient ["k".data])).2.1 = initClient ["k".data] ∧
    2 ≤ (ClientState.mk ["a".data, "b".data] 0 0).apiKeys.length :=
  ⟨c10_single_credential.1 _ (by decide),
   c10_single_credential.2.1 ("k".data) []
     (fun _ _ => .error ⟨true, false, some 429, [], []⟩),
   c10_single_credential.2.2 (ClientState.mk ["a".data, "b".data] 0 0)
     (by decide)⟩

/-- C5 counterexample: a `BadRequest` error with status 429 whose message
lacks the "too many" marker.  The claim's clause "any error with status 429"
makes it rotation-worthy, but `_should_rotate_key` returns from the
`BadRequest` branch with `False` (the status-only clauses never apply to
`BadRequest` errors). -/
theorem c5_counterexample :
    _should_rotate_key excBadRequest429 = false ∧
    rotationWorthySpec excBadRequest429 = true := by
  constructor
  · decide
  · decide

/-- C5 (amended).  `_should_rotate_key` is equivalent to: rate-limit-class,
or `BadRequest` with status 400/429 and the "too many" marker, or a
non-`BadRequest` error with status 429, or a non-`BadRequest` error with
status 400 and the marker.  And in the spec's scenario — credentials
`{A, B}`, calls under `A` raise a rate-limit error, calls under `B`
succeed — `generate_reply` returns `B`'s result and the active credential
afterwards is `B`. -/
theorem c5_rotation_amended :
    (∀ e : PyExc, _should_rotate_key e = rotationWorthyAmended e) ∧
    (generate_reply rotMsgs rotBehavior (initClient rotKeys)).1 =
      .ok ("rotated".data) ∧
    (generate_reply rotMsgs rotBehavior (initClient rotKeys)).2.1.currentKeyIdx
      = 1 := by
  refine ⟨?_, by rfl, by rfl⟩
  intro e
  obtain ⟨rl, br, st, msg, txt⟩ := e
  unfold _should_rotate_key rotationWorthyAmended statusIn400429
  cases rl <;> cases br <;> simp <;>
    rcases st with _ | n <;>
      try simp
  all_goals
    by_cases h4 : n = 400 <;> by_cases h9 : n = 429 <;>
      cases hm : hasTooMany ⟨_, _, some n, msg, txt⟩ <;> simp_all

/-! ### `_normalize_messages` lemmas -/

theorem normalizeMsg_error_of_invalid {m : InMsg} (h : validRole m = false) :
    ∃ e, normalizeMsg m = .error e := by
  unfold validRole at h
  rcases m with ⟨role, content⟩
  rcases role with _ | r
  · exact ⟨_, rfl⟩
  · simp only [decide_eq_false_iff_not] at h
    rcases content with _ | c
    · exact ⟨("Unsupported role: ".data) ++ r, by simp [normalizeMsg, h]⟩
    · rcases c <;>
        exact ⟨("Unsupported role: ".data) ++ r, by simp [normalizeMsg, h]⟩

theorem normalizeMsg_ok_facts {m : InMsg} {nm : NormMsg}
    (h : normalizeMsg m = .ok nm) :
    m.role = some nm.role ∧
    (isStrB nm.content || isListB nm.content) = true ∧
    (∀ d, m.content = some (.dict d) → hasTypeKey d = true →
      nm.content = .list [.dict d]) := by
  rcases m with ⟨role, content⟩
  rcases role with _ | r
  · exact absurd h (by simp [normalizeMsg])
  by_cases hr : r ∈ CHAT_ROLES
  · rcases content with _ | c
    · simp only [normalizeMsg, if_pos hr, Option.getD_none] at h
      injection h with h2
      subst h2
      refine ⟨rfl, by simp [isStrB], ?_⟩
      intro d hd
      cases hd
    · rcases c with s | n | b | _ | xs | kvs <;>
        simp only [normalizeMsg, if_pos hr, Option.getD_some] at h
      · injection h with h2
        subst h2
        exact ⟨rfl, by simp [isStrB], fun d hd => by cases hd⟩
      · injection h with h2
        subst h2
        exact ⟨rfl, by simp [isStrB], fun d hd => by cases hd⟩
      · injection h with h2
        subst h2
        exact ⟨rfl, by simp [isStrB], fun d hd => by cases hd⟩
      · injection h with h2
        subst h2
        exact ⟨rfl, by simp [isStrB], fun d hd => by cases hd⟩
      · injection h with h2
        subst h2
        exact ⟨rfl, by simp [isListB], fun d hd => by cases hd⟩
      · by_cases ht : hasTypeKey kvs = true
        · rw [ht, if_pos rfl] at h
          injection h with h2
          subst h2
          refine ⟨rfl, by simp [isListB], ?_⟩
          intro d hd _
          injection hd with hd2
          injection hd2 with hd3
          rw [hd3]
        · rw [Bool.not_eq_true] at ht
          rw [ht, if_neg (by simp)] at h
          injection h with h2
          subst h2
          refine ⟨rfl, by simp [isStrB], ?_⟩
          intro d hd htk
          exfalso
          injection hd with hd2
          injection hd2 with hd3
          subst hd3
          rw [ht] at htk
          exact Bool.false_ne_true htk
  · exfalso
    rcases content with _ | c
    · simp [normalizeMsg, hr] at h
    · rcases c <;> simp [normalizeMsg, hr] at h

theorem normalize_error_of_some_invalid {msgs : List InMsg}
    (h : ∃ m ∈ msgs, validRole m = false) :
    ∃ e, _normalize_messages msgs = .error e := by
  induction msgs with
  | nil =>
    rcases h with ⟨m, hm, _⟩
    cases hm
  | cons m0 rest ih =>
    rcases h with ⟨m, hm, hbad⟩
    rcases List.mem_cons.mp hm with he | ht
    · subst he
      obtain ⟨e, he⟩ := normalizeMsg_error_of_invalid hbad
      exact ⟨e, by simp [_normalize_messages, he]⟩
    · cases hn : normalizeMsg m0 with
      | error e => exact ⟨e, by simp [_normalize_messages, hn]⟩
      | ok nm =>
        obtain ⟨e, he⟩ := ih ⟨m, ht, hbad⟩
        exact ⟨e, by simp [_normalize_messages, hn, he]⟩

theorem normalize_ok_facts {msgs : List InMsg} {norm : List NormMsg}
    (h : _normalize_messages msgs = .ok norm) :
    norm.length = msgs.length ∧
    List.Forall₂ (fun m nm => m.role = some nm.role) msgs norm ∧
    (∀ nm ∈ norm, (isStrB nm.content || isListB nm.content) = true) ∧
    List.Forall₂ (fun (m : InMsg) (nm : NormMsg) => ∀ d,
      m.content = some (.dict d) → hasTypeKey d = true →
      nm.content = .list [.dict d]) msgs norm := by
  induction msgs generalizing norm with
  | nil =>
    unfold _normalize_messages at h
    injection h with h2
    subst h2
    exact ⟨rfl, .nil, by simp, .nil⟩
  | cons m0 rest ih =>
    unfold _normalize_messages at h
    cases hn : normalizeMsg m0 with
    | error e =>
      rw [hn] at h
      cases h
    | ok nm =>
      rw [hn] at h
      cases hr : _normalize_messages rest with
      | error e =>
        rw [hr] at h
        cases h
      | ok nms =>
        rw [hr] at h
        injection h with h2
        subst h2
        obtain ⟨hlen, hroles, hshape, htyped⟩ := ih hr
        obtain ⟨hrole0, hshape0, htyped0⟩ := normalizeMsg_ok_facts hn
        refine ⟨by simp [hlen], .cons hrole0 hroles, ?_, .cons htyped0 htyped⟩
        intro x hx
        rcases List.mem_cons.mp hx with hx0 | hx1
        · subst hx0; exact hshape0
        · exact hshape x hx1

/-- C9.  Normalization fails fast on invalid roles: if any message's role
is outside `{user, assistant, system}`, both `generate_reply` and
`generate_reply_stream` return a validation error with the client state
untouched and **zero** transport calls; when all roles are valid, the
normalized list has the same length, the same roles, every content is a
string or a list, and a single typed part (a dict with a `"type"` key)
becomes a one-element list. -/
theorem c9_validation :
    (∀ (msgs : List InMsg) (behavior : Nat → Nat → Except PyExc (List Char))
        (st : ClientState), (∃ m ∈ msgs, validRole m = false) →
      ∃ err, generate_reply msgs behavior st =
        (.error (.validation err), st, 0)) ∧
    (∀ (msgs : List InMsg)
        (behavior : Nat → Nat → Except PyExc (List (List Char)))
        (st : ClientState), (∃ m ∈ msgs, validRole m = false) →
      ∃ err, generate_reply_stream msgs behavior st =
        (.error (.validation err), st, 0)) ∧
    (∀ (msgs : List InMsg) (norm : List NormMsg),
      _normalize_messages msgs = .ok norm →
      norm.length = msgs.length ∧
      List.Forall₂ (fun m nm => m.role = some nm.role) msgs norm ∧
      (∀ nm ∈ norm, (isStrB nm.content || isListB nm.content) = true) ∧
      List.Forall₂ (fun (m : InMsg) (nm : NormMsg) => ∀ d,
        m.content = some (.dict d) → hasTypeKey d = true →
        nm.content = .list [.dict d]) msgs norm) := by
  refine ⟨?_, ?_, fun msgs norm h => normalize_ok_facts h⟩
  · intro msgs behavior st h
    obtain ⟨e, he⟩ := normalize_error_of_some_invalid h
    exact ⟨e, by simp [generate_reply, he]⟩
  · intro msgs behavior st h
    obtain ⟨e, he⟩ := normalize_error_of_some_invalid h
    exact ⟨e, by simp [generate_reply_stream, he]⟩

/-- Witness for C9: an unknown role `"robot"` is rejected before any
transport call, and a valid message list normalizes with the stated
shape. -/
theorem c9_witness :
    (∃ err, generate_reply [⟨some ("robot".data), some (.str ("hi".data))⟩]
        (fun _ _ => .ok []) (initClient ["k".data]) =
      (.error (.validation err), initClient ["k".data], 0)) ∧
    (([⟨"user".data, .str ("5".data)⟩] : List NormMsg).length =
      ([⟨some ("user".data), some (.int 5)⟩] : List InMsg).length) :=
  ⟨c9_validation.1 [⟨some ("robot".data), some (.str ("hi".data))⟩]
      (fun _ _ => .ok []) (initClient ["k".data])
      ⟨⟨some ("robot".data), some (.str ("hi".data))⟩,
        List.mem_singleton.mpr rfl, by decide⟩,
   (c9_validation.2.2 [⟨some ("user".data), some (.int 5)⟩]
      [⟨"user".data, .str ("5".data)⟩] (by rfl)).1⟩

/-- Witness for C5: the amended classification evaluated at the concrete
`BadRequest`-with-429 error and at the scenario's rate-limit error. -/
theorem c5_witness :
    _should_rotate_key excBadRequest429 = rotationWorthyAmended excBadRequest429 ∧
    _should_rotate_key rlScenarioExc = rotationWorthyAmended rlScenarioExc :=
  ⟨c5_rotation_amended.1 excBadRequest429, c5_rotation_amended.1 rlScenarioExc⟩

/-- C6 counterexample: a stream that completes normally followed by a
failing final delivery still leaves exactly one (whole) assistant turn in
the store — the append at bot.py line 387 happens *before* the delivery
section — contradicting the claim that a delivery failure mid-exchange
leaves no assistant turn. -/
theorem c6_counterexample :
    (on_message_trace (.str ("q".data)) [("hi".data)] true true).countP
      isAssistantAppend = 1 := by
  decide

/-- C6 (amended).  In every exchange the user turn is the first store
event (before any stream consumption); the assistant turn is appended
exactly once when the stream completes and never when the stream (or an
in-stream delivery) fails; any appended assistant turn carries the full
accumulated text (never a prefix); and the store trace is independent of
whether the final delivery fails — in particular a final-delivery failure
after a completed stream leaves the whole assistant turn stored. -/
theorem c6_store_ordering (uc : PyVal) (chunks : List (List Char))
    (ok fd : Bool) :
    (on_message_trace uc chunks ok fd).head? = some (.appendUser uc) ∧
    (on_message_trace uc chunks ok fd).countP isUserAppend = 1 ∧
    (on_message_trace uc chunks ok fd).countP isAssistantAppend =
      (if ok then 1 else 0) ∧
    (∀ c, BotEvent.appendAssistant c ∈ on_message_trace uc chunks ok fd →
      c = remove_markdown_stars (finalAccText chunks)) ∧
    on_message_trace uc chunks ok true = on_message_trace uc chunks ok false := by
  have hcons : ∀ p : BotEvent → Bool,
      (chunks.map BotEvent.consume).countP p =
        if ∀ x ∈ chunks, p (.consume x) = false then 0 else
          (chunks.map BotEvent.consume).countP p := by
    intro p
    split <;> rename_i hc
    · rw [List.countP_eq_zero]
      intro a ha
      obtain ⟨x, hx, rfl⟩ := List.mem_map.mp ha
      simp [hc x hx]
    · rfl
  refine ⟨rfl, ?_, ?_, ?_, rfl⟩
  · unfold on_message_trace
    rw [List.countP_cons]
    rw [List.countP_append]
    have h1 : (chunks.map BotEvent.consume).countP isUserAppend = 0 := by
      rw [List.countP_eq_zero]
      intro a ha
      obtain ⟨x, hx, rfl⟩ := List.mem_map.mp ha
      simp [isConsume, isUserAppend]
    rw [h1]
    cases ok <;> simp [isUserAppend]
  · unfold on_message_trace
    rw [List.countP_cons]
    rw [List.countP_append]
    have h1 : (chunks.map BotEvent.consume).countP isAssistantAppend = 0 := by
      rw [List.countP_eq_zero]
      intro a ha
      obtain ⟨x, hx, rfl⟩ := List.mem_map.mp ha
      simp [isAssistantAppend]
    rw [h1]
    cases ok <;> simp [isUserAppend, isAssistantAppend]
  · intro c hc
    unfold on_message_trace at hc
    rcases List.mem_cons.mp hc with h0 | h1
    · cases h0
    · rcases List.mem_append.mp h1 with h2 | h3
      · obtain ⟨x, _, he⟩ := List.mem_map.mp h2
        cases he
      · cases ok
        · simp at h3
        · exact BotEvent.appendAssistant.inj (List.mem_singleton.mp h3)

/-- Witness for C6: a failed stream leaves no assistant turn. -/
theorem c6_witness :
    (on_message_trace (.str ("q".data)) [("hi".data)] false false).countP
      isAssistantAppend = (if false then 1 else 0) :=
  (c6_store_ordering (.str ("q".data)) [("hi".data)] false false).2.2.1

/-! ### `split_plain_text` lemmas -/

theorem splitCut_pos {limit : Nat} (hl : 1 ≤ limit) {t : List Char}
    (ht : t ≠ []) : 1 ≤ splitCut limit t := by
  have he0 : 1 ≤ min t.length limit :=
    le_min (List.length_pos.mpr ht) hl
  unfold splitCut
  dsimp only
  split
  · split
    · split
      · omega
      · exact he0
    · exact he0
  · exact he0

theorem splitRaw_join {limit : Nat} (hl : 1 ≤ limit) :
    ∀ (fuel : Nat) (t : List Char), t.length ≤ fuel →
      joinL (splitRaw limit fuel t) = t := by
  intro fuel
  induction fuel with
  | zero =>
    intro t ht
    have h0 : t = [] := List.length_eq_zero.mp (Nat.le_zero.mp ht)
    subst h0
    rfl
  | succ n ih =>
    intro t ht
    rcases t with _ | ⟨x, xs⟩
    · rfl
    · have hcut : 1 ≤ splitCut limit (x :: xs) := splitCut_pos hl (by simp)
      show joinL ((x :: xs).take (splitCut limit (x :: xs)) ::
        splitRaw limit n ((x :: xs).drop (splitCut limit (x :: xs)))) = x :: xs
      have hrec : joinL (splitRaw limit n
          ((x :: xs).drop (splitCut limit (x :: xs)))) =
          (x :: xs).drop (splitCut limit (x :: xs)) := by
        apply ih
        rw [List.length_drop]
        have := ht
        simp only [List.length_cons] at this ⊢
        omega
      show (x :: xs).take (splitCut limit (x :: xs)) ++
        joinL (splitRaw limit n ((x :: xs).drop (splitCut limit (x :: xs)))) =
        x :: xs
      rw [hrec, List.take_append_drop]

theorem split_plain_text_eq_of_gt {t : List Char} {limit : Nat}
    (h : limit < t.length) :
    split_plain_text t limit = (splitRaw limit (t.length + 1) t).filterMap
      fun p =>
        let q := stripNL p
        if q.isEmpty then none else some q := by
  unfold split_plain_text
  rw [if_neg (Nat.not_le.mpr h)]

set_option maxRecDepth 100000 in
/-- C2 counterexample: on the concrete 741-character single fenced code
block `c2Text` (limit 300), concatenating the chunk bodies (opening fence
line and closing fence stripped) does *not* reproduce the original code
body — the newline at the chunk boundary is lost to the per-chunk
`strip()`. -/
theorem c2_counterexample :
    joinL ((split_formatted_text c2Text 300).map
      fun c => (c.drop 6).take ((c.drop 6).length - 4)) ≠ c2Body := by
  decide

/-- C2 (amended).  For a single fenced code block (with an opening-fence
header line) longer than the limit: (i) `split_formatted_text` returns
exactly the chunks `header ++ strip(piece) ++ "\n```"` over the pieces
produced by `split_plain_text` on the fence-stripped body with chunk size
`max(MIN_CHUNK, limit - header_len - 4)`; (ii) every chunk begins with the
opening fence line (language tag included) and ends with a closing fence;
(iii) when the body exceeds the chunk size, the un-stripped pieces form a
partition of the body (they concatenate to it exactly; the emitted chunk
bodies are these pieces with surrounding whitespace stripped and blank
pieces dropped) — so concatenating the chunk bodies reproduces the body
only up to whitespace at the chunk boundaries. -/
theorem c2_code_fence_chunks (t : List Char) (limit : Nat) (ni : Nat)
    (hpre : ("```".data).isPrefixOf (stripNL t))
    (hnl : (stripNL t).findIdx? (· = '\n') = some ni)
    (hlen : limit < (stripNL t).length) :
    (split_formatted_text t limit =
      (split_plain_text (stripClosingFence ((stripNL t).drop (ni + 1)))
          (max MIN_CODE_CHUNK_SIZE
            (limit - ((stripNL t).take (ni + 1)).length - 4))).map
        fun p => (stripNL t).take (ni + 1) ++ pyStrip p ++ ("\n```".data)) ∧
    (∀ c ∈ split_formatted_text t limit,
      (stripNL t).take (ni + 1) <+: c ∧ ("\n```".data) <:+ c) ∧
    (∀ body cs, body = stripClosingFence ((stripNL t).drop (ni + 1)) →
      cs = max MIN_CODE_CHUNK_SIZE
        (limit - ((stripNL t).take (ni + 1)).length - 4) →
      cs < body.length →
      joinL (splitRaw cs (body.length + 1) body) = body ∧
      split_plain_text body cs = (splitRaw cs (body.length + 1) body).filterMap
        fun p =>
          let q := stripNL p
          if q.isEmpty then none else some q) := by
  have hmain : split_formatted_text t limit =
      (split_plain_text (stripClosingFence ((stripNL t).drop (ni + 1)))
          (max MIN_CODE_CHUNK_SIZE
            (limit - ((stripNL t).take (ni + 1)).length - 4))).map
        fun p => (stripNL t).take (ni + 1) ++ pyStrip p ++ ("\n```".data) := by
    unfold split_formatted_text
    rw [if_neg (Nat.not_le.mpr hlen), if_pos hpre, hnl]
  refine ⟨hmain, ?_, ?_⟩
  · intro c hc
    rw [hmain] at hc
    obtain ⟨p, _, rfl⟩ := List.mem_map.mp hc
    constructor
    · rw [List.append_assoc]
      exact List.prefix_append _ _
    · exact List.suffix_append _ _
  · intro body cs hb hcs hlt
    subst hb
    subst hcs
    refine ⟨?_, split_plain_text_eq_of_gt hlt⟩
    exact splitRaw_join (le_trans (by norm_num [MIN_CODE_CHUNK_SIZE])
      (Nat.le_max_left _ _)) _ _ (Nat.le_succ _)

set_option maxRecDepth 100000 in
/-- Witness for C2 at the concrete block `c2Text` with limit 300. -/
theorem c2_witness :
    ("```".data).isPrefixOf (stripNL c2Text) = true ∧
    (stripNL c2Text).findIdx? (· = '\n') = some 5 ∧
    300 < (stripNL c2Text).length ∧
    (∀ c ∈ split_formatted_text c2Text 300,
      (stripNL c2Text).take 6 <+: c ∧ ("\n```".data) <:+ c) :=
  ⟨by decide, by decide, by decide,
    (c2_code_fence_chunks c2Text 300 5 (by decide) (by decide)
      (by decide)).2.1⟩

/-! ### `detect_code_language` lemmas -/

theorem containsSub_iff (needle hay : List Char) :
    containsSub needle hay = true ↔ ∃ a b, hay = a ++ (needle ++ b) := by
  induction hay with
  | nil =>
    simp only [containsSub, List.isEmpty_iff]
    constructor
    · intro h
      exact ⟨[], [], by simp [h]⟩
    · rintro ⟨a, b, hab⟩
      rcases a with _ | _ <;> rcases needle with _ | _ <;> simp_all
  | cons x t ih =>
    simp only [containsSub, Bool.or_eq_true, ih]
    constructor
    · rintro (hp | ⟨a, b, rfl⟩)
      · obtain ⟨rest, hrest⟩ := List.isPrefixOf_iff_prefix.mp hp
        exact ⟨[], rest, by simp [hrest]⟩
      · exact ⟨x :: a, b, rfl⟩
    · rintro ⟨a, b, hab⟩
      rcases a with _ | ⟨a0, a2⟩
      · left
        exact List.isPrefixOf_iff_prefix.mpr ⟨b, by simpa using hab.symm⟩
      · right
        injection hab with h1 h2
        exact ⟨a2, b, h2⟩

theorem containsSub_dropWhile {p : Char → Bool} {c0 : Char} {rest : List Char}
    (h0 : p c0 = false) :
    ∀ t, containsSub (c0 :: rest) t = true →
      containsSub (c0 :: rest) (t.dropWhile p) = true := by
  intro t
  induction t with
  | nil => intro h; simp [containsSub] at h
  | cons x xs ih =>
    intro h
    by_cases hx : p x = true
    · rw [List.dropWhile_cons_of_pos hx]
      apply ih
      have hsplit : (c0 = x ∧ rest <+: xs) ∨ containsSub (c0 :: rest) xs = true := by
        simpa [containsSub] using h
      rcases hsplit with ⟨h1, _⟩ | hr
      · exfalso
        rw [← h1, h0] at hx
        cases hx
      · exact hr
    · rw [List.dropWhile_cons_of_neg (by simpa using hx)]
      exact h

theorem containsSub_reverse (needle hay : List Char) :
    containsSub needle.reverse hay.reverse = containsSub needle hay := by
  rcases h1 : containsSub needle hay with _ | _ <;>
    rcases h2 : containsSub needle.reverse hay.reverse with _ | _ <;> try rfl
  · exfalso
    obtain ⟨a, b, hab⟩ := (containsSub_iff _ _).mp h2
    have : hay = b.reverse ++ (needle ++ a.reverse) := by
      have := congrArg List.reverse hab
      simpa [List.reverse_append, List.append_assoc] using this
    rw [(containsSub_iff needle hay).mpr ⟨b.reverse, a.reverse, this⟩] at h1
    cases h1
  · exfalso
    obtain ⟨a, b, hab⟩ := (containsSub_iff _ _).mp h1
    have : hay.reverse = b.reverse ++ (needle.reverse ++ a.reverse) := by
      rw [hab]
      simp [List.reverse_append, List.append_assoc]
    rw [(containsSub_iff needle.reverse hay.reverse).mpr
      ⟨b.reverse, a.reverse, this⟩] at h2
    cases h2

/-- The literal `<!DOCTYPE html` survives `str.strip()`: its first and last
characters are not whitespace. -/
theorem contains_doctype_strip {t : List Char}
    (h : containsSub ("<!DOCTYPE html".data) t = true) :
    containsSub ("<!DOCTYPE html".data) (pyStrip t) = true := by
  unfold pyStrip pyStripBy
  have step1 : containsSub ("<!DOCTYPE html".data) (t.dropWhile isPyWs) = true :=
    @containsSub_dropWhile isPyWs '<' ("!DOCTYPE html".data)
      (by decide) t h
  rw [← containsSub_reverse]
  rw [List.reverse_reverse]
  have step2 :
      containsSub (("<!DOCTYPE html".data).reverse)
        ((t.dropWhile isPyWs).reverse) = true := by
    rw [containsSub_reverse]
    exact step1
  have : ("<!DOCTYPE html".data).reverse = 'l' :: ("mth EPYTCOD!<".data) := by
    decide
  rw [this] at step2 ⊢
  exact @containsSub_dropWhile isPyWs 'l' ("mth EPYTCOD!<".data)
    (by decide) _ step2

theorem caselessPre_extend {pat : List Char} :
    ∀ {s : List Char}, caselessPre pat s = true →
      ∀ b, caselessPre pat (s ++ b) = true := by
  induction pat with
  | nil => intro s _ b; rfl
  | cons p ps ih =>
    intro s h b
    rcases s with _ | ⟨c, cs⟩
    · cases h
    · simp only [caselessPre, Bool.and_eq_true] at h ⊢
      exact ⟨h.1, ih h.2 b⟩

theorem searchPrev_suffix (f : Option Char → List Char → Bool)
    (hf : ∀ p q l, f p l = f q l) :
    ∀ (prev : Option Char) (a b : List Char), f none b = true →
      searchPrev f prev (a ++ b) = true := by
  intro prev a
  induction a generalizing prev with
  | nil =>
    intro b hb
    rcases b with _ | ⟨x, xs⟩
    · show f prev [] = true
      rw [hf prev none]
      exact hb
    · show (f prev (x :: xs) || _) = true
      rw [hf prev none, hb]
      rfl
  | cons c a2 ih =>
    intro b hb
    show (f prev (c :: (a2 ++ b)) || searchPrev f (some c) (a2 ++ b)) = true
    rw [ih (some c) b hb]
    simp

/-- C7 counterexample: a 20-character input containing `<!DOCTYPE html`
whose *stripped* length is 14 (< 20), so `detect_code_language` rejects it
instead of returning `(true, "html")` as the claim requires for "every
string of at least 20 characters containing `<!DOCTYPE html`". -/
theorem c7_counterexample :
    ("      <!DOCTYPE html".data).length = 20 ∧
    containsSub ("<!DOCTYPE html".data) ("      <!DOCTYPE html".data) = true ∧
    detect_code_language ("      <!DOCTYPE html".data) = (false, none) := by
  refine ⟨by decide, by decide, by decide⟩

/-- C7 (amended).  `detect_code_language` returns `(false, none)` whenever
the *stripped* input is shorter than 20 characters; returns
`(true, "html")` for every input whose stripped form has at least 20
characters and which contains the literal `<!DOCTYPE html` (the `html`
signature is tested first); in general, when some signature matches, the
first match (in `CODE_LANGUAGE_PATTERNS` order, as computed by
`firstSignature`) fixes the language; and when no signature matches the
result is `(true, none)` exactly when there are at least 3 non-blank lines
of which at least `max(3, ⌊50%⌋)` look like code, and `(false, none)`
otherwise. -/
theorem c7_detect_amended :
    (∀ t : List Char, (pyStrip t).length < 20 →
      detect_code_language t = (false, none)) ∧
    (∀ t : List Char, 20 ≤ (pyStrip t).length →
      containsSub ("<!DOCTYPE html".data) t = true →
      detect_code_language t = (true, some "html")) ∧
    (∀ (t : List Char) (lang : String), 20 ≤ (pyStrip t).length →
      firstSignature (pyStrip t) = some lang →
      detect_code_language t = (true, some lang)) ∧
    (∀ t : List Char, 20 ≤ (pyStrip t).length →
      firstSignature (pyStrip t) = none →
      detect_code_language t =
        (if 3 ≤ (fallbackLines (pyStrip t)).length ∧
            max 3 ((fallbackLines (pyStrip t)).length / 2) ≤
              ((fallbackLines (pyStrip t)).filter lineLooksCode).length
         then (true, none) else (false, none))) := by
  refine ⟨?_, ?_, ?_, ?_⟩
  · intro t h
    unfold detect_code_language
    rw [if_pos h]
  · intro t h20 hcontains
    have hstrip := contains_doctype_strip hcontains
    obtain ⟨a, b, hab⟩ := (containsSub_iff _ _).mp hstrip
    have hmatch : htmlAt none (("<!DOCTYPE html".data) ++ b) = true := by
      unfold htmlAt
      rw [@caselessPre_extend ("<!doctype html".data)
        ("<!DOCTYPE html".data) (by decide) b]
      rfl
    have hsearch : searchPrev htmlAt none (pyStrip t) = true := by
      rw [hab]
      exact searchPrev_suffix htmlAt (fun p q l => rfl) none a _ hmatch
    have hfs : firstSignature (pyStrip t) = some "html" := by
      unfold firstSignature CODE_LANGUAGE_MATCHERS
      rw [List.find?_cons_of_pos _ (by exact hsearch)]
      rfl
    unfold detect_code_language
    rw [if_neg (Nat.not_lt.mpr h20), hfs]
  · intro t lang h20 hsig
    unfold detect_code_language
    rw [if_neg (Nat.not_lt.mpr h20), hsig]
  · intro t h20 hnone
    unfold detect_code_language
    rw [if_neg (Nat.not_lt.mpr h20), hnone]
    by_cases h3 : (fallbackLines (pyStrip t)).length < 3
    · rw [if_pos h3, if_neg]
      rintro ⟨h3le, _⟩
      omega
    · rw [if_neg h3]
      by_cases hc : max 3 ((fallbackLines (pyStrip t)).length / 2) ≤
          ((fallbackLines (pyStrip t)).filter lineLooksCode).length
      · rw [if_pos hc, if_pos ⟨by omega, hc⟩]
      · rw [if_neg hc, if_neg fun hand => hc hand.2]

/-- Witness for C7: a 21-character HTML document is classified as
`(true, "html")`, and a short sentence as `(false, none)`. -/
theorem c7_witness :
    (20 ≤ (pyStrip ("<!DOCTYPE html><body>".data)).length ∧
      detect_code_language ("<!DOCTYPE html><body>".data) =
        (true, some "html")) ∧
    ((pyStrip ("hi there".data)).length < 20 ∧
      detect_code_language ("hi there".data) = (false, none)) :=
  ⟨⟨by decide, c7_detect_amended.2.1 ("<!DOCTYPE html><body>".data)
      (by decide) (by decide)⟩,
   ⟨by decide, c7_detect_amended.1 ("hi there".data) (by decide)⟩⟩

/-! ### `json` round-trip lemmas -/

theorem hexVal_hexDig {m : Nat} (h : m < 16) : hexVal (hexDig m) = some m := by
  have hall : ∀ k, k < 16 → hexVal (hexDig k) = some k := by decide
  exact hall m h

theorem escStep (c : Char) (tail : List Char) :
    parseStringBody (escChar c ++ tail) =
      (parseStringBody tail).map fun p => (c :: p.1, p.2) := by
  by_cases h1 : c = '"'
  · subst h1
    show parseStringBody (escChar _ ++ tail) = _
    simp only [escChar]
    rw [parseStringBody.eq_def]
    simp [unescC]
  by_cases h2 : c = '\\'
  · subst h2
    show parseStringBody (escChar _ ++ tail) = _
    simp only [escChar]
    rw [parseStringBody.eq_def]
    simp [unescC]
  by_cases h3 : c = '\n'
  · subst h3
    show parseStringBody (escChar _ ++ tail) = _
    simp only [escChar]
    rw [parseStringBody.eq_def]
    simp [unescC]
  by_cases h4 : c = '\t'
  · subst h4
    show parseStringBody (escChar _ ++ tail) = _
    simp only [escChar]
    rw [parseStringBody.eq_def]
    simp [unescC]
  by_cases h5 : c = '\r'
  · subst h5
    show parseStringBody (escChar _ ++ tail) = _
    simp only [escChar]
    rw [parseStringBody.eq_def]
    simp [unescC]
  by_cases h6 : c = '\x08'
  · subst h6
    show parseStringBody (escChar _ ++ tail) = _
    simp only [escChar]
    rw [parseStringBody.eq_def]
    simp [unescC]
  by_cases h7 : c = '\x0c'
  · subst h7
    show parseStringBody (escChar _ ++ tail) = _
    simp only [escChar]
    rw [parseStringBody.eq_def]
    simp [unescC]
  by_cases h8 : c.toNat < 32
  · have he : escChar c =
        ['\\', 'u', '0', '0', hexDig (c.toNat / 16), hexDig (c.toNat % 16)] := by
      unfold escChar
      rw [if_neg h1, if_neg h2, if_neg h3, if_neg h4, if_neg h5, if_neg h6,
        if_neg h7, if_pos h8]
    rw [he]
    show parseStringBody
      ('\\' :: 'u' :: '0' :: '0' :: hexDig (c.toNat / 16) ::
        hexDig (c.toNat % 16) :: tail) = _
    have hd : c.toNat / 16 < 16 := by omega
    have hm : c.toNat % 16 < 16 := Nat.mod_lt _ (by omega)
    rw [parseStringBody.eq_def]
    simp [hexVal_hexDig hd, hexVal_hexDig hm,
      show hexVal '0' = some 0 from by decide]
    rw [show 16 * (c.toNat / 16) + c.toNat % 16 = c.toNat from by omega,
      Char.ofNat_toNat]
  · have he : escChar c = [c] := by
      unfold escChar
      rw [if_neg h1, if_neg h2, if_neg h3, if_neg h4, if_neg h5, if_neg h6,
        if_neg h7, if_neg h8]
    rw [he]
    show parseStringBody (c :: tail) = _
    rw [parseStringBody.eq_def]
    simp [h1, h2]

theorem parseStringBody_escape (s : List Char) :
    ∀ rest, parseStringBody ((s.map escChar).flatten ++ ('"' :: rest)) =
      some (s, rest) := by
  induction s with
  | nil =>
    intro rest
    simp only [List.map_nil, List.flatten_nil, List.nil_append]
    rw [parseStringBody.eq_def]
    simp
  | cons c s2 ih =>
    intro rest
    show parseStringBody ((escChar c ++ (s2.map escChar).flatten) ++
      ('"' :: rest)) = _
    rw [List.append_assoc, escStep, ih]
    rfl

theorem skipJWs_cons_neg {c : Char} (h : isJWs c = false) (r : List Char) :
    skipJWs (c :: r) = c :: r := by
  unfold skipJWs
  rw [List.dropWhile_cons_of_neg (by simp [h])]

theorem skipJWs_cons_pos {c : Char} (h : isJWs c = true) (r : List Char) :
    skipJWs (c :: r) = skipJWs r := by
  unfold skipJWs
  rw [List.dropWhile_cons_of_pos h]

theorem parseVal_ws_skip {sp : Char} (h : isJWs sp = true) (f : Nat)
    (l : List Char) : parseVal f (sp :: l) = parseVal f l := by
  cases f with
  | zero => rfl
  | succ f2 =>
    rw [parseVal.eq_def, parseVal.eq_def]
    dsimp only
    rw [skipJWs_cons_pos h]

theorem parseItems_ws_skip {sp : Char} (h : isJWs sp = true) (f : Nat)
    (l : List Char) : parseItems f (sp :: l) = parseItems f l := by
  cases f with
  | zero => rfl
  | succ f2 =>
    rw [parseItems.eq_def, parseItems.eq_def]
    dsimp only
    rw [parseVal_ws_skip h]

theorem parseMembers_ws_skip {sp : Char} (h : isJWs sp = true) (f : Nat)
    (l : List Char) : parseMembers f (sp :: l) = parseMembers f l := by
  cases f with
  | zero => rfl
  | succ f2 =>
    rw [parseMembers.eq_def, parseMembers.eq_def]
    dsimp only
    rw [skipJWs_cons_pos h]

theorem digit_not_ws {d : Char} (h : d.isDigit = true) : isJWs d = false := by
  by_cases hj : isJWs d = true
  · simp only [isJWs, Bool.or_eq_true, decide_eq_true_eq] at hj
    rcases hj with ((h1 | h1) | h1) | h1 <;> (rw [h1] at h; exact absurd h (by decide))
  · simpa using hj

theorem digit_ne {d : Char} (h : d.isDigit = true) {x : Char}
    (hx : x.isDigit = false) : d ≠ x := by
  intro he
  rw [he, hx] at h
  cases h

theorem natReprGo_spec :
    ∀ (fuel n : Nat), n < fuel →
      (∀ c ∈ natReprGo fuel n, c.isDigit = true) ∧ natReprGo fuel n ≠ [] ∧
      digitsVal (natReprGo fuel n) = n := by
  intro fuel
  induction fuel with
  | zero => intro n h; omega
  | succ f2 ih =>
    intro n h
    by_cases h10 : n < 10
    · have hdig : ∀ k, k < 10 → (hexDig k).isDigit = true ∧
          (hexDig k).toNat - 48 = k := by decide
      refine ⟨?_, ?_, ?_⟩
      · intro c hc
        simp only [natReprGo, if_pos h10, List.mem_singleton] at hc
        rw [hc]
        exact (hdig n h10).1
      · simp [natReprGo, if_pos h10]
      · simp only [natReprGo, if_pos h10, digitsVal, List.foldl_cons,
          List.foldl_nil]
        have := (hdig n h10).2
        omega
    · have hrec : n / 10 < f2 := by
        have := Nat.div_lt_self (by omega : 0 < n) (by omega : 1 < 10)
        omega
      obtain ⟨ihall, ihne, ihval⟩ := ih (n / 10) hrec
      have hdig : ∀ k, k < 10 → (hexDig k).isDigit = true ∧
          (hexDig k).toNat - 48 = k := by decide
      have hmod : n % 10 < 10 := Nat.mod_lt _ (by omega)
      refine ⟨?_, ?_, ?_⟩
      · intro c hc
        simp only [natReprGo, if_neg h10, List.mem_append,
          List.mem_singleton] at hc
        rcases hc with hc | hc
        · exact ihall c hc
        · rw [hc]; exact (hdig _ hmod).1
      · simp only [natReprGo, if_neg h10]
        intro he
        rcases List.append_eq_nil.mp he with ⟨_, h2⟩
        cases h2
      · simp only [natReprGo, if_neg h10]
        unfold digitsVal
        rw [List.foldl_append]
        simp only [List.foldl_cons, List.foldl_nil]
        unfold digitsVal at ihval
        rw [ihval]
        have := (hdig _ hmod).2
        omega

theorem sepStart_facts {rest : List Char} (hs : sepStart rest = true) :
    ∀ ch, rest.head? = some ch →
      ch.isDigit = false ∧ ch ≠ '.' ∧ ch ≠ 'e' ∧ ch ≠ 'E' ∧ ch ≠ '-' := by
  intro ch hch
  rcases rest with _ | ⟨c, r⟩
  · cases hch
  · injection hch with h1
    subst h1
    simp only [sepStart, Bool.or_eq_true, decide_eq_true_eq] at hs
    rcases hs with (h | h) | h <;> (subst h; refine ⟨by decide, by decide,
      by decide, by decide, by decide⟩)

theorem takeWhile_of_all {p : Char → Bool} :
    ∀ {xs : List Char}, (∀ x ∈ xs, p x = true) → xs.takeWhile p = xs := by
  intro xs
  induction xs with
  | nil => intro _; rfl
  | cons x t ih =>
    intro h
    rw [List.takeWhile_cons_of_pos (h x (by simp))]
    rw [ih fun y hy => h y (by simp [hy])]

theorem takeWhile_sep {ds rest : List Char}
    (hall : ∀ c ∈ ds, c.isDigit = true) (hs : sepStart rest = true) :
    (ds ++ rest).takeWhile Char.isDigit = ds := by
  rw [List.takeWhile_append, if_pos (by rw [takeWhile_of_all hall])]
  rcases rest with _ | ⟨c, r⟩
  · simp
  · rw [List.takeWhile_cons_of_neg]
    · simp
    · have := sepStart_facts hs c rfl
      simp [this.1]

theorem parseIntTok_digits {ds rest : List Char}
    (hall : ∀ c ∈ ds, c.isDigit = true) (hne : ds ≠ [])
    (hs : sepStart rest = true) :
    parseIntTok (ds ++ rest) = some ((digitsVal ds : Int), rest) := by
  obtain ⟨d0, ds2, rfl⟩ : ∃ d0 ds2, ds = d0 :: ds2 := by
    rcases ds with _ | ⟨a, b⟩
    · cases hne rfl
    · exact ⟨a, b, rfl⟩
  have hd0 : d0.isDigit = true := hall d0 (by simp)
  have hneg : ¬(((d0 :: ds2) ++ rest).head? = some '-') := by
    intro he
    injection he with he2
    exact (digit_ne hd0 (by decide)) he2
  have htw := takeWhile_sep hall hs
  unfold parseIntTok
  simp only [if_neg hneg, htw]
  rw [if_neg (by simp)]
  have hdrop : ((d0 :: ds2) ++ rest).drop (d0 :: ds2).length = rest :=
    List.drop_left _ _
  rw [hdrop]
  rcases rest with _ | ⟨c, r⟩
  · simp
  · have hfacts := sepStart_facts hs c rfl
    rw [if_neg]
    simp only [List.head?_cons]
    push_neg
    refine ⟨?_, ?_, ?_⟩ <;> (intro he; injection he with he2)
    · exact hfacts.2.1 he2
    · exact hfacts.2.2.1 he2
    · exact hfacts.2.2.2.1 he2

theorem parseIntTok_neg_digits {ds rest : List Char}
    (hall : ∀ c ∈ ds, c.isDigit = true) (hne : ds ≠ [])
    (hs : sepStart rest = true) :
    parseIntTok (('-' :: ds) ++ rest) = some (-(digitsVal ds : Int), rest) := by
  have htw := takeWhile_sep hall hs
  have hdrop : (ds ++ rest).drop ds.length = rest := List.drop_left _ _
  unfold parseIntTok
  simp only [List.cons_append, List.head?_cons, List.tail_cons, if_pos rfl,
    if_true, htw, hdrop]
  rw [if_neg (by simp [hne])]
  rcases rest with _ | ⟨c, r⟩
  · simp
  · have hfacts := sepStart_facts hs c rfl
    rw [if_neg]
    simp only [List.head?_cons]
    push_neg
    refine ⟨?_, ?_, ?_⟩ <;> (intro he; injection he with he2)
    · exact hfacts.2.1 he2
    · exact hfacts.2.2.1 he2
    · exact hfacts.2.2.2.1 he2

theorem parseIntTok_intRepr (n : Int) (rest : List Char)
    (hs : sepStart rest = true) :
    parseIntTok (intRepr n ++ rest) = some (n, rest) := by
  by_cases hneg : n < 0
  · have h0 : intRepr n = '-' :: natRepr n.natAbs := by
      unfold intRepr
      rw [if_pos hneg]
    obtain ⟨hall, hne, hval⟩ :=
      natReprGo_spec (n.natAbs + 1) n.natAbs (by omega)
    rw [h0]
    have := @parseIntTok_neg_digits (natRepr n.natAbs)
      rest hall hne hs
    rw [this]
    have hval2 : digitsVal (natRepr n.natAbs) = n.natAbs := hval
    rw [hval2]
    have : -(n.natAbs : Int) = n := by omega
    rw [this]
  · have h0 : intRepr n = natRepr n.toNat := by
      unfold intRepr
      rw [if_neg hneg]
    obtain ⟨hall, hne, hval⟩ :=
      natReprGo_spec (n.toNat + 1) n.toNat (by omega)
    rw [h0]
    unfold natRepr
    rw [parseIntTok_digits hall hne hs]
    rw [hval]
    have : (n.toNat : Int) = n := Int.toNat_of_nonneg (by omega)
    rw [this]

theorem W_pos : ∀ v : PyVal, 1 ≤ W v := by
  intro v
  cases v with
  | list xs => cases xs <;> simp [W]
  | dict kvs => cases kvs <;> simp [W]
  | str s => simp [W]
  | int n => simp [W]
  | bool b => simp [W]
  | null => simp [W]

theorem listW_pos : ∀ ys : List PyVal, 1 ≤ listW ys := by
  intro ys
  cases ys <;> simp [listW]

theorem dictW_pos : ∀ m : List (List Char × PyVal), 1 ≤ dictW m := by
  intro m
  cases m <;> simp [dictW]

theorem isPrefixOf_append_self (a b : List Char) :
    a.isPrefixOf (a ++ b) = true :=
  List.isPrefixOf_iff_prefix.mpr (List.prefix_append a b)

theorem dumpsItems_decomp (x : PyVal) (xs : List PyVal) :
    ∃ tl, dumpsItems (x :: xs) = dumps x ++ tl ∧
      (tl = [] ∨ ∃ tl2, tl = ',' :: ' ' :: tl2) := by
  rcases xs with _ | ⟨y, ys⟩
  · exact ⟨[], by simp [dumpsItems], Or.inl rfl⟩
  · exact ⟨',' :: ' ' :: dumpsItems (y :: ys), by simp [dumpsItems],
      Or.inr ⟨_, rfl⟩⟩

theorem dumps_head (v : PyVal) :
    ∃ c r, dumps v = c :: r ∧ isJWs c = false ∧ c ≠ ']' ∧ c ≠ '}' := by
  cases v with
  | str s =>
    exact ⟨'"', (s.map escChar).flatten ++ ['"'], by simp [dumps, dumpsStr],
      by decide, by decide, by decide⟩
  | int n =>
    by_cases hn : n < 0
    · refine ⟨'-', natRepr n.natAbs, ?_, by decide, by decide, by decide⟩
      simp [dumps, intRepr, if_pos hn]
    · obtain ⟨hall, hne, _⟩ := natReprGo_spec (n.toNat + 1) n.toNat (by omega)
      rcases hrep : natRepr n.toNat with _ | ⟨d, ds⟩
      · exact absurd hrep hne
      · have hd : d.isDigit = true := by
          apply hall
          rw [show natReprGo (n.toNat + 1) n.toNat = natRepr n.toNat from rfl,
            hrep]
          simp
        refine ⟨d, ds, ?_, digit_not_ws hd, digit_ne hd (by decide),
          digit_ne hd (by decide)⟩
        simp [dumps, intRepr, if_neg hn, hrep]
  | bool b =>
    cases b
    · exact ⟨'f', ("alse".data), by simp [dumps], by decide, by decide,
        by decide⟩
    · exact ⟨'t', ("rue".data), by simp [dumps], by decide, by decide,
        by decide⟩
  | null =>
    exact ⟨'n', ("ull".data), by simp [dumps], by decide, by decide,
      by decide⟩
  | list xs =>
    exact ⟨'[', dumpsItems xs ++ [']'], by simp [dumps], by decide, by decide,
      by decide⟩
  | dict kvs =>
    exact ⟨'{', dumpsMembers kvs ++ ['}'], by simp [dumps], by decide,
      by decide, by decide⟩

theorem parseVal_dumps :
    ∀ (N : Nat) (v : PyVal), sizeOf v ≤ N →
      ∀ (f : Nat) (rest : List Char), W v ≤ f → sepStart rest = true →
        parseVal f (dumps v ++ rest) = some (v, rest) := by
  intro N
  induction N with
  | zero =>
    intro v hv
    exfalso
    cases v <;> simp at hv
  | succ N ih =>
    intro v hv f rest hf hs
    obtain ⟨f2, rfl⟩ : ∃ f2, f = f2 + 1 := by
      rcases f with _ | f2
      · exact absurd hf (by have := W_pos v; omega)
      · exact ⟨f2, rfl⟩
    cases v with
    | str s =>
      have hshape : dumps (.str s) ++ rest =
          '"' :: ((s.map escChar).flatten ++ ('"' :: rest)) := by
        simp [dumps, dumpsStr]
      rw [hshape, parseVal.eq_def]
      dsimp only
      rw [skipJWs_cons_neg (by decide)]
      simp only [reduceIte]
      rw [parseStringBody_escape]
      rfl
    | int n =>
      by_cases hn : n < 0
      · have hshape : dumps (.int n) ++ rest =
            '-' :: (natRepr n.natAbs ++ rest) := by
          simp [dumps, intRepr, if_pos hn]
        rw [hshape, parseVal.eq_def]
        dsimp only
        rw [skipJWs_cons_neg (by decide)]
        simp only [reduceIte]
        rw [show ('-' :: (natRepr n.natAbs ++ rest)) = intRepr n ++ rest from
          by simp [intRepr, if_pos hn]]
        rw [parseIntTok_intRepr n rest hs]
        simp
      · obtain ⟨hall, hne, _⟩ := natReprGo_spec (n.toNat + 1) n.toNat (by omega)
        rcases hrep : natRepr n.toNat with _ | ⟨d, ds⟩
        · exact absurd hrep hne
        have hd : d.isDigit = true := by
          apply hall
          rw [show natReprGo (n.toNat + 1) n.toNat = natRepr n.toNat from rfl,
            hrep]
          simp
        have hshape : dumps (.int n) ++ rest = d :: (ds ++ rest) := by
          simp [dumps, intRepr, if_neg hn, hrep]
        rw [hshape, parseVal.eq_def]
        dsimp only
        rw [skipJWs_cons_neg (digit_not_ws hd)]
        dsimp only
        rw [if_neg (digit_ne hd (by decide) : ¬d = '{'),
          if_neg (digit_ne hd (by decide) : ¬d = '['),
          if_neg (digit_ne hd (by decide) : ¬d = '"'),
          if_neg (digit_ne hd (by decide) : ¬d = 't'),
          if_neg (digit_ne hd (by decide) : ¬d = 'f'),
          if_neg (digit_ne hd (by decide) : ¬d = 'n')]
        rw [show (d :: (ds ++ rest)) = intRepr n ++ rest from
          by simp [intRepr, if_neg hn, hrep]]
        rw [parseIntTok_intRepr n rest hs]
        rfl
    | bool b =>
      cases b
      · have hshape : dumps (.bool false) ++ rest =
            'f' :: (("alse".data) ++ rest) := by simp [dumps]
        rw [hshape, parseVal.eq_def]
        dsimp only
        rw [skipJWs_cons_neg (by decide)]
        simp only [reduceIte]
        rw [isPrefixOf_append_self]
        simp only [reduceIte]
        rw [show (4 : Nat) = ("alse".data).length from rfl, List.drop_left]
        simp
      · have hshape : dumps (.bool true) ++ rest =
            't' :: (("rue".data) ++ rest) := by simp [dumps]
        rw [hshape, parseVal.eq_def]
        dsimp only
        rw [skipJWs_cons_neg (by decide)]
        simp only [reduceIte]
        rw [isPrefixOf_append_self]
        simp only [reduceIte]
        rw [show (3 : Nat) = ("rue".data).length from rfl, List.drop_left]
        simp
    | null =>
      have hshape : dumps PyVal.null ++ rest =
          'n' :: (("ull".data) ++ rest) := by simp [dumps]
      rw [hshape, parseVal.eq_def]
      dsimp only
      rw [skipJWs_cons_neg (by decide)]
      simp only [reduceIte]
      rw [isPrefixOf_append_self]
      simp only [reduceIte]
      rw [show (3 : Nat) = ("ull".data).length from rfl, List.drop_left]
      simp
    | list xs =>
      rcases xs with _ | ⟨x, xs2⟩
      · have hshape : dumps (.list []) ++ rest = '[' :: (']' :: rest) := by
          simp [dumps, dumpsItems]
        rw [hshape, parseVal.eq_def]
        dsimp only
        rw [skipJWs_cons_neg (by decide)]
        dsimp only
        rw [skipJWs_cons_neg (by decide)]
        simp
      · have hsz : ∀ y ∈ x :: xs2, sizeOf y ≤ N := by
          intro y hy
          have h1 := List.sizeOf_lt_of_mem hy
          have h2 : sizeOf (PyVal.list (x :: xs2)) = 1 + sizeOf (x :: xs2) := by
            simp
          omega
        have hQ : ∀ ys : List PyVal, (∀ y ∈ ys, sizeOf y ≤ N) →
            ∀ (g : Nat) (r2 : List Char), listW ys ≤ g → sepStart r2 = true →
              ys ≠ [] →
              parseItems g (dumpsItems ys ++ (']' :: r2)) = some (ys, r2) := by
          intro ys
          induction ys with
          | nil => intro _ g r2 _ _ h; cases h rfl
          | cons y ys2 ihy =>
            intro hsz2 g r2 hg hr2 _
            obtain ⟨g2, rfl⟩ : ∃ g2, g = g2 + 1 := by
              rcases g with _ | g2
              · exact absurd hg (by have := listW_pos (y :: ys2); omega)
              · exact ⟨g2, rfl⟩
            have hWy : W y ≤ g2 := by
              have h1 : listW (y :: ys2) = max (W y) (listW ys2) + 1 := by
                simp [listW]
              have h2 := Nat.le_max_left (W y) (listW ys2)
              omega
            rcases ys2 with _ | ⟨y2, ys3⟩
            · have hshape2 : dumpsItems [y] ++ (']' :: r2) =
                  dumps y ++ (']' :: r2) := by simp [dumpsItems]
              rw [hshape2, parseItems.eq_def]
              dsimp only
              rw [ih y (hsz2 y (by simp)) g2 (']' :: r2) hWy (by rfl)]
              dsimp only
              rw [skipJWs_cons_neg (by decide)]
              rfl
            · have hshape2 : dumpsItems (y :: y2 :: ys3) ++ (']' :: r2) =
                  dumps y ++
                    (',' :: ' ' :: (dumpsItems (y2 :: ys3) ++ (']' :: r2))) := by
                simp [dumpsItems]
              rw [hshape2, parseItems.eq_def]
              dsimp only
              rw [ih y (hsz2 y (by simp)) g2 _ hWy (by rfl)]
              dsimp only
              rw [skipJWs_cons_neg (by decide)]
              show Option.map (fun p => (y :: p.1, p.2))
                (parseItems g2 (' ' :: (dumpsItems (y2 :: ys3) ++ (']' :: r2))))
                = _
              rw [parseItems_ws_skip (by decide)]
              rw [ihy (fun y3 hy3 => hsz2 y3 (by simp [hy3])) g2 r2
                (by
                  have h1 : listW (y :: y2 :: ys3) =
                      max (W y) (listW (y2 :: ys3)) + 1 := by simp [listW]
                  have h2 := Nat.le_max_right (W y) (listW (y2 :: ys3))
                  omega)
                hr2 (by simp)]
              rfl
        obtain ⟨c0, r0, hc0, hws0, hne0, _⟩ := dumps_head x
        obtain ⟨tl, htl, _⟩ := dumpsItems_decomp x xs2
        have hshape : dumps (.list (x :: xs2)) ++ rest =
            '[' :: (dumpsItems (x :: xs2) ++ (']' :: rest)) := by
          simp [dumps]
        rw [hshape, parseVal.eq_def]
        dsimp only
        rw [skipJWs_cons_neg (by decide)]
        dsimp only
        have hr : dumpsItems (x :: xs2) ++ (']' :: rest) =
            c0 :: (r0 ++ tl ++ (']' :: rest)) := by
          rw [htl, hc0]
          simp
        have hcond : ¬((c0 :: (r0 ++ tl ++ (']' :: rest))).head? = some ']') := by
          simp only [List.head?_cons]
          intro he
          injection he with he2
          exact hne0 he2
        rw [hr, skipJWs_cons_neg hws0]
        rw [if_neg hcond]
        rw [← hr]
        rw [hQ (x :: xs2) hsz f2 rest
          (by
            have h1 : W (.list (x :: xs2)) = listW (x :: xs2) + 1 := by
              simp [W]
            omega)
          hs (by simp)]
        simp
    | dict kvs =>
      rcases kvs with _ | ⟨kv, kvs2⟩
      · have hshape : dumps (.dict []) ++ rest = '{' :: ('}' :: rest) := by
          simp [dumps, dumpsMembers]
        rw [hshape, parseVal.eq_def]
        dsimp only
        rw [skipJWs_cons_neg (by decide)]
        dsimp only
        rw [skipJWs_cons_neg (by decide)]
        simp
      · have hsz : ∀ p ∈ kv :: kvs2, sizeOf p.2 ≤ N := by
          intro p hp
          have h1 := List.sizeOf_lt_of_mem hp
          have h2 : sizeOf (PyVal.dict (kv :: kvs2)) =
              1 + sizeOf (kv :: kvs2) := by simp
          have h3 : sizeOf p = 1 + sizeOf p.1 + sizeOf p.2 := by
            rcases p with ⟨a, b⟩
            simp
          omega
        have hR : ∀ ms : List (List Char × PyVal),
            (∀ p ∈ ms, sizeOf p.2 ≤ N) →
            ∀ (g : Nat) (r2 : List Char), dictW ms ≤ g → sepStart r2 = true →
              ms ≠ [] →
              parseMembers g (dumpsMembers ms ++ ('}' :: r2)) =
                some (ms, r2) := by
          intro ms
          induction ms with
          | nil => intro _ g r2 _ _ h; cases h rfl
          | cons m ms2 ihm =>
            intro hsz2 g r2 hg hr2 _
            obtain ⟨g2, rfl⟩ : ∃ g2, g = g2 + 1 := by
              rcases g with _ | g2
              · exact absurd hg (by have := dictW_pos (m :: ms2); omega)
              · exact ⟨g2, rfl⟩
            have hWm : W m.2 ≤ g2 := by
              have h1 : dictW (m :: ms2) = max (W m.2) (dictW ms2) + 1 := by
                simp [dictW]
              have h2 := Nat.le_max_left (W m.2) (dictW ms2)
              omega
            obtain ⟨k, v⟩ := m
            rcases ms2 with _ | ⟨m2, ms3⟩
            · have hshape2 : dumpsMembers [(k, v)] ++ ('}' :: r2) =
                  '"' :: ((k.map escChar).flatten ++
                    ('"' :: (':' :: (' ' :: (dumps v ++ ('}' :: r2)))))) := by
                simp [dumpsMembers, dumpsStr]
              rw [hshape2, parseMembers.eq_def]
              dsimp only
              rw [skipJWs_cons_neg (by decide)]
              dsimp only
              rw [parseStringBody_escape]
              dsimp only
              rw [skipJWs_cons_neg (by decide)]
              dsimp only
              rw [parseVal_ws_skip (by decide)]
              rw [ih v (hsz2 (k, v) (by simp)) g2 ('}' :: r2) hWm (by rfl)]
              dsimp only
              rw [skipJWs_cons_neg (by decide)]
              rfl
            · have hshape2 :
                  dumpsMembers ((k, v) :: (m2 :: ms3)) ++ ('}' :: r2) =
                  '"' :: ((k.map escChar).flatten ++
                    ('"' :: (':' :: (' ' :: (dumps v ++
                      (',' :: (' ' :: (dumpsMembers (m2 :: ms3) ++
                        ('}' :: r2))))))))) := by
                simp [dumpsMembers, dumpsStr]
              rw [hshape2, parseMembers.eq_def]
              dsimp only
              rw [skipJWs_cons_neg (by decide)]
              dsimp only
              rw [parseStringBody_escape]
              dsimp only
              rw [skipJWs_cons_neg (by decide)]
              dsimp only
              rw [parseVal_ws_skip (by decide)]
              rw [ih v (hsz2 (k, v) (by simp)) g2 _ hWm (by rfl)]
              dsimp only
              rw [skipJWs_cons_neg (by decide)]
              show Option.map (fun p => ((k, v) :: p.1, p.2))
                (parseMembers g2
                  (' ' :: (dumpsMembers (m2 :: ms3) ++ ('}' :: r2)))) = _
              rw [parseMembers_ws_skip (by decide)]
              rw [ihm (fun p hp => hsz2 p (by simp [hp])) g2 r2
                (by
                  have h1 : dictW ((k, v) :: (m2 :: ms3)) =
                      max (W v) (dictW (m2 :: ms3)) + 1 := by simp [dictW]
                  have h2 := Nat.le_max_right (W v) (dictW (m2 :: ms3))
                  omega)
                hr2 (by simp)]
              rfl
        have hhd : ∃ t, dumpsMembers (kv :: kvs2) = '"' :: t := by
          obtain ⟨k, v⟩ := kv
          rcases kvs2 with _ | ⟨m2, ms3⟩
          · exact ⟨((k.map escChar).flatten ++ ['"']) ++
              (':' :: (' ' :: dumps v)), by simp [dumpsMembers, dumpsStr]⟩
          · exact ⟨((k.map escChar).flatten ++ ['"']) ++
              (':' :: (' ' :: (dumps v ++
                (',' :: (' ' :: dumpsMembers (m2 :: ms3)))))),
              by simp [dumpsMembers, dumpsStr]⟩
        obtain ⟨t, ht⟩ := hhd
        have hshape : dumps (.dict (kv :: kvs2)) ++ rest =
            '{' :: (dumpsMembers (kv :: kvs2) ++ ('}' :: rest)) := by
          simp [dumps]
        rw [hshape, parseVal.eq_def]
        dsimp only
        rw [skipJWs_cons_neg (by decide)]
        dsimp only
        have hr : dumpsMembers (kv :: kvs2) ++ ('}' :: rest) =
            '"' :: (t ++ ('}' :: rest)) := by
          rw [ht]
          simp
        have hcond : ¬(('"' :: (t ++ ('}' :: rest))).head? = some '}') := by
          simp only [List.head?_cons]
          intro he
          injection he with he2
          exact absurd he2 (by decide)
        rw [hr, skipJWs_cons_neg (by decide)]
        rw [if_neg hcond]
        rw [← hr]
        rw [hR (kv :: kvs2) hsz f2 rest
          (by
            have h1 : W (.dict (kv :: kvs2)) = dictW (kv :: kvs2) + 1 := by
              simp [W]
            omega)
          hs (by simp)]
        simp

theorem dumps_len_pos (v : PyVal) : 1 ≤ (dumps v).length := by
  obtain ⟨c, r, hc, _, _, _⟩ := dumps_head v
  rw [hc]
  simp

theorem W_dumps_le :
    ∀ (N : Nat) (v : PyVal), sizeOf v ≤ N → W v ≤ (dumps v).length + 2 := by
  intro N
  induction N with
  | zero =>
    intro v hv
    exfalso
    cases v <;> simp at hv
  | succ N ih =>
    intro v hv
    cases v with
    | str s =>
      have e1 : W (.str s) = 1 := by simp [W]
      omega
    | int n =>
      have e1 : W (.int n) = 1 := by simp [W]
      omega
    | bool b =>
      have e1 : W (.bool b) = 1 := by simp [W]
      omega
    | null =>
      have e1 : W PyVal.null = 1 := by simp [W]
      omega
    | list xs =>
      rcases xs with _ | ⟨x, xs2⟩
      · have e1 : W (.list []) = 1 := by simp [W]
        omega
      · have hsz : ∀ y ∈ x :: xs2, sizeOf y ≤ N := by
          intro y hy
          have h1 := List.sizeOf_lt_of_mem hy
          have h2 : sizeOf (PyVal.list (x :: xs2)) =
              1 + sizeOf (x :: xs2) := by simp
          omega
        have hB : ∀ ys : List PyVal, (∀ y ∈ ys, sizeOf y ≤ N) →
            listW ys ≤ (dumpsItems ys).length + 3 := by
          intro ys
          induction ys with
          | nil =>
            intro _
            simp [listW, dumpsItems]
          | cons y ys2 ihy =>
            intro hsz2
            have hy := ih y (hsz2 y (by simp))
            rcases ys2 with _ | ⟨y2, ys3⟩
            · have e1 : listW [y] = max (W y) (listW ([] : List PyVal)) + 1 := by
                simp [listW]
              have e2 : listW ([] : List PyVal) = 1 := by simp [listW]
              have e3 : (dumpsItems [y]).length = (dumps y).length := by
                simp [dumpsItems]
              have e4 := W_pos y
              omega
            · have e1 : listW (y :: y2 :: ys3) =
                  max (W y) (listW (y2 :: ys3)) + 1 := by simp [listW]
              have e2 : (dumpsItems (y :: y2 :: ys3)).length =
                  (dumps y).length + 2 + (dumpsItems (y2 :: ys3)).length := by
                simp [dumpsItems]
                omega
              have e3 := ihy (fun y3 h3 => hsz2 y3 (by simp [h3]))
              have e4 := dumps_len_pos y
              omega
        have e1 : W (.list (x :: xs2)) = listW (x :: xs2) + 1 := by simp [W]
        have e2 : (dumps (.list (x :: xs2))).length =
            (dumpsItems (x :: xs2)).length + 2 := by simp [dumps]
        have e3 := hB (x :: xs2) hsz
        omega
    | dict kvs =>
      rcases kvs with _ | ⟨kv, kvs2⟩
      · have e1 : W (.dict []) = 1 := by simp [W]
        omega
      · have hsz : ∀ p ∈ kv :: kvs2, sizeOf p.2 ≤ N := by
          intro p hp
          have h1 := List.sizeOf_lt_of_mem hp
          have h2 : sizeOf (PyVal.dict (kv :: kvs2)) =
              1 + sizeOf (kv :: kvs2) := by simp
          have h3 : sizeOf p = 1 + sizeOf p.1 + sizeOf p.2 := by
            rcases p with ⟨a, b⟩
            simp
          omega
        have hC : ∀ ms : List (List Char × PyVal),
            (∀ p ∈ ms, sizeOf p.2 ≤ N) →
            dictW ms ≤ (dumpsMembers ms).length + 3 := by
          intro ms
          induction ms with
          | nil =>
            intro _
            simp [dictW, dumpsMembers]
          | cons m ms2 ihm =>
            intro hsz2
            obtain ⟨k, v⟩ := m
            have hv := ih v (hsz2 (k, v) (by simp))
            rcases ms2 with _ | ⟨m2, ms3⟩
            · have e1 : dictW [(k, v)] =
                  max (W v) (dictW ([] : List (List Char × PyVal))) + 1 := by
                simp [dictW]
              have e2 : dictW ([] : List (List Char × PyVal)) = 1 := by
                simp [dictW]
              have e3 : (dumpsMembers [(k, v)]).length =
                  (dumpsStr k).length + 2 + (dumps v).length := by
                simp [dumpsMembers]
                omega
              have e4 := W_pos v
              omega
            · have e1 : dictW ((k, v) :: (m2 :: ms3)) =
                  max (W v) (dictW (m2 :: ms3)) + 1 := by simp [dictW]
              have e2 : (dumpsMembers ((k, v) :: (m2 :: ms3))).length =
                  (dumpsStr k).length + 2 + (dumps v).length + 2 +
                    (dumpsMembers (m2 :: ms3)).length := by
                simp [dumpsMembers]
                omega
              have e3 := ihm (fun p hp => hsz2 p (by simp [hp]))
              have e4 := dumps_len_pos v
              omega
        have e1 : W (.dict (kv :: kvs2)) = dictW (kv :: kvs2) + 1 := by
          simp [W]
        have e2 : (dumps (.dict (kv :: kvs2))).length =
            (dumpsMembers (kv :: kvs2)).length + 2 := by simp [dumps]
        have e3 := hC (kv :: kvs2) hsz
        omega

theorem loads_dumps (v : PyVal) : loads (dumps v) = some v := by
  have hW : W v ≤ 2 * (dumps v).length + 2 := by
    have h1 := W_dumps_le (sizeOf v) v le_rfl
    have h2 := dumps_len_pos v
    omega
  have h1 := parseVal_dumps (sizeOf v) v le_rfl
    (2 * (dumps v).length + 2) [] hW rfl
  rw [show dumps v ++ ([] : List Char) = dumps v from by simp] at h1
  unfold loads
  rw [h1]
  rfl

theorem parseVal_notJson (f : Nat) (s : List Char)
    (h : strNotJson s = true) : parseVal f s = none := by
  cases f with
  | zero => rfl
  | succ f2 =>
    rw [parseVal.eq_def]
    dsimp only
    unfold strNotJson at h
    rcases hsk : skipJWs s with _ | ⟨c, r⟩
    · rfl
    · rw [hsk] at h
      dsimp only at h
      have hc : jsonStartChar c = false := by
        cases hjc : jsonStartChar c
        · rfl
        · rw [hjc] at h
          simp at h
      have h1 : ¬ c = '{' := fun he => by
        subst he
        simp [jsonStartChar] at hc
      have h2 : ¬ c = '[' := fun he => by
        subst he
        simp [jsonStartChar] at hc
      have h3 : ¬ c = '"' := fun he => by
        subst he
        simp [jsonStartChar] at hc
      have h4 : ¬ c = 't' := fun he => by
        subst he
        simp [jsonStartChar] at hc
      have h5 : ¬ c = 'f' := fun he => by
        subst he
        simp [jsonStartChar] at hc
      have h6 : ¬ c = 'n' := fun he => by
        subst he
        simp [jsonStartChar] at hc
      have hminus : ¬ c = '-' := fun he => by
        subst he
        simp [jsonStartChar] at hc
      have hdig : c.isDigit = false := by
        cases hd : c.isDigit
        · rfl
        · exfalso
          simp [jsonStartChar, hd] at hc
      dsimp only
      rw [if_neg h1, if_neg h2, if_neg h3, if_neg h4, if_neg h5, if_neg h6]
      unfold parseIntTok
      simp only [List.head?_cons]
      have hne2 : ¬(some c = some '-') := by
        intro he
        injection he with he3
        exact hminus he3
      rw [if_neg hne2]
      rw [List.takeWhile_cons_of_neg (by simp [hdig])]
      simp

theorem loads_notJson (s : List Char) (h : strNotJson s = true) :
    loads s = none := by
  unfold loads
  rw [parseVal_notJson _ s h]

theorem decode_serialize (v : PyVal) (h : contentSafe v = true) :
    decodeContent (serializeContent v) = v := by
  cases v with
  | str s =>
    have h2 : strNotJson s = true := h
    show decodeContent s = _
    unfold decodeContent
    rw [loads_notJson s h2]
  | int n =>
    show decodeContent (dumps (.int n)) = _
    unfold decodeContent
    rw [loads_dumps]
  | bool b =>
    show decodeContent (dumps (.bool b)) = _
    unfold decodeContent
    rw [loads_dumps]
  | null =>
    show decodeContent (dumps PyVal.null) = _
    unfold decodeContent
    rw [loads_dumps]
  | list xs =>
    show decodeContent (dumps (.list xs)) = _
    unfold decodeContent
    rw [loads_dumps]
  | dict kvs =>
    show decodeContent (dumps (.dict kvs)) = _
    unfold decodeContent
    rw [loads_dumps]

theorem filter_storageAppendAll (uid : Int)
    (msgs : List (List Char × PyVal)) :
    ∀ db : List StoreRow,
      (storageAppendAll db uid msgs).filter (fun r => decide (r.userId = uid)) =
        db.filter (fun r => decide (r.userId = uid)) ++
          msgs.map (fun m => ⟨uid, m.1, serializeContent m.2⟩) := by
  induction msgs with
  | nil =>
    intro db
    simp [storageAppendAll]
  | cons m rest ih =>
    intro db
    show (storageAppendAll (storageAppend db uid m.1 m.2) uid rest).filter _ = _
    rw [ih (storageAppend db uid m.1 m.2)]
    unfold storageAppend
    simp

theorem filter_replace_history (db : List StoreRow) (uid : Int)
    (msgs : List (List Char × PyVal)) :
    (replace_history db uid msgs).filter (fun r => r.userId = uid) =
      msgs.map fun m => ⟨uid, m.1, serializeContent m.2⟩ := by
  unfold replace_history
  rw [List.filter_append]
  have h1 : (db.filter fun r => r.userId ≠ uid).filter
      (fun r => decide (r.userId = uid)) = [] := by
    induction db with
    | nil => rfl
    | cons r rest ih =>
      by_cases h : r.userId = uid
      · simp [List.filter_cons, h, ih]
      · simp [List.filter_cons, h, ih]
  have h2 : (msgs.map fun m =>
      (⟨uid, m.1, serializeContent m.2⟩ : StoreRow)).filter
      (fun r => decide (r.userId = uid)) =
      msgs.map fun m => ⟨uid, m.1, serializeContent m.2⟩ := by
    rw [List.filter_eq_self]
    intro r hr
    obtain ⟨m, _, rfl⟩ := List.mem_map.mp hr
    simp
  rw [h1, h2]
  simp

/-- **C3** (corrected): appends of safe content (structured values, or
plain text that does not parse as JSON) round-trip through
`load_history` in insertion order, and `replace_history` followed by
`load_history` with a large enough limit yields exactly the replacement
sequence.  (Plain text that *does* parse as JSON — e.g. `"123"` — is not
returned as the same text: `json.loads` converts it, see the
counterexample.) -/
theorem c3_storage_roundtrip (db : List StoreRow) (uid : Int)
    (msgs : List (List Char × PyVal)) (limit : Nat)
    (hsafe : ∀ m ∈ msgs, contentSafe m.2 = true)
    (hlim : (db.filter fun r => r.userId = uid).length + msgs.length ≤ limit) :
    load_history (storageAppendAll db uid msgs) uid limit =
      load_history db uid limit ++ msgs ∧
    load_history (replace_history db uid msgs) uid limit = msgs := by
  have hrows : ((msgs.map fun m =>
      (⟨uid, m.1, serializeContent m.2⟩ : StoreRow)).map
      fun r => (r.role, decodeContent r.content)) = msgs := by
    rw [List.map_map]
    have hcg : ∀ m ∈ msgs,
        ((fun r : StoreRow => (r.role, decodeContent r.content)) ∘
          fun m => (⟨uid, m.1, serializeContent m.2⟩ : StoreRow)) m = id m := by
      intro m hm
      show (m.1, decodeContent (serializeContent m.2)) = m
      rw [decode_serialize m.2 (hsafe m hm)]
    rw [List.map_congr_left hcg, List.map_id]
  constructor
  · unfold load_history
    rw [filter_storageAppendAll uid msgs db]
    rw [lastN_of_length_le (by
      rw [List.length_append, List.length_map]
      exact hlim)]
    rw [lastN_of_length_le (by
      have := hlim
      omega)]
    rw [List.map_append, hrows]
  · unfold load_history
    rw [filter_replace_history db uid msgs]
    rw [lastN_of_length_le (by
      rw [List.length_map]
      omega)]
    exact hrows

/-- Counterexample to C3 as stated: plain text `"123"` is stored as-is,
but `load_history` runs `json.loads` on it and returns the integer `123`,
not the same text. -/
theorem c3_counterexample :
    load_history (storageAppend [] 1 ("user".data) (.str ("123".data))) 1 5 =
      [(("user".data), PyVal.int 123)] ∧
    ∀ s, PyVal.int 123 ≠ PyVal.str s := by
  constructor
  · rfl
  · intro s h
    exact PyVal.noConfusion h

theorem c3_witness :
    (∀ m ∈ [(("user".data), PyVal.str ("hello".data)),
            (("assistant".data), PyVal.dict
              [(("type".data), PyVal.str ("text".data))])],
        contentSafe m.2 = true) ∧
    ((([] : List StoreRow).filter fun r => r.userId = (7 : Int)).length +
      [(("user".data), PyVal.str ("hello".data)),
       (("assistant".data), PyVal.dict
         [(("type".data), PyVal.str ("text".data))])].length ≤ 12) ∧
    (load_history (storageAppendAll [] 7
        [(("user".data), PyVal.str ("hello".data)),
         (("assistant".data), PyVal.dict
           [(("type".data), PyVal.str ("text".data))])]) 7 12 =
      load_history [] 7 12 ++
        [(("user".data), PyVal.str ("hello".data)),
         (("assistant".data), PyVal.dict
           [(("type".data), PyVal.str ("text".data))])] ∧
     load_history (replace_history [] 7
        [(("user".data), PyVal.str ("hello".data)),
         (("assistant".data), PyVal.dict
           [(("type".data), PyVal.str ("text".data))])]) 7 12 =
      [(("user".data), PyVal.str ("hello".data)),
       (("assistant".data), PyVal.dict
         [(("type".data), PyVal.str ("text".data))])]) :=
  ⟨by decide, by decide,
    c3_storage_roundtrip [] 7
      [(("user".data), PyVal.str ("hello".data)),
       (("assistant".data), PyVal.dict
         [(("type".data), PyVal.str ("text".data))])] 12
      (by decide) (by decide)⟩
